import Mathlib

/-!
Verification of the sumpy FMM translation operators (M2M and M2L).

This file gives a shallow embedding of the translation code in
`src/sumpy/expansion/multipole.py` and `src/sumpy/expansion/m2l.py`.
Multi-indices are lists of naturals; coefficient vectors are lists over ℚ
(or over a general field for M2L, whose kernel derivatives are opaque
symbolic values).  Python lists indexed through the `mi_to_index`
dictionaries are embedded as Lean lists indexed by the position of a
multi-index in the corresponding identifier list.

The repository files `sumpy/expansion/__init__.py` (the expansion terms
wrangler) and `sumpy/tools.py` (small helpers: `add_mi`, `mi_factorial`,
`mi_set_axis`, `matvec_toeplitz_upper_triangular`, `fft`) are not included
under `src/`; definitions for those are modelled from the spec and are
marked as such in their doc comments.
-/

namespace Sumpy

/-- A multi-index: an ordered tuple of non-negative integers (spec §3). -/
abbrev Mi := List ℕ

/-- `sumpy.tools.mi_set_axis`: replace one component of a multi-index.
Modelled from the spec: not under `src/`; used by `translate_from` as
`mi_set_axis(tgt_mi, d, mi_i)`, i.e. the tuple with entry `d` replaced. -/
def mi_set_axis (mi : Mi) (axis : ℕ) (v : ℕ) : Mi := mi.set axis v

/-- `sumpy.tools.mi_factorial`: product of componentwise factorials.
Modelled from the spec (not under `src/`): the multinomial normalisation
`Π_k mi_k!` used by both M2M paths. -/
def mi_factorial (mi : Mi) : ℕ := (mi.map Nat.factorial).prod

/-- `sumpy.tools.add_mi`: componentwise sum of two multi-indices.
Modelled from the spec (not under `src/`): used by
`_translation_classes_dependent_data_mis` as `add_mi(src_deriv, tgt_deriv)`. -/
def add_mi (a b : Mi) : Mi := (a.zip b).map (fun p => p.1 + p.2)

/-- Componentwise partial order on multi-indices of equal length (spec §3). -/
def miLe (s t : Mi) : Prop := List.Forall₂ (· ≤ ·) s t

instance (s t : Mi) : Decidable (miLe s t) := by
  unfold miLe; infer_instance

/-- `pytools.generate_nonnegative_integer_tuples_below`: all tuples `v`
with `v_k < ns_k` for every `k`, first coordinate varying slowest.
(External enumeration helper used by both M2M reference path and the
M2L circulant index construction.) -/
def gnitb : List ℕ → List Mi
  | [] => [[]]
  | n :: ns => (List.range n).flatMap (fun i => (gnitb ns).map (fun t => i :: t))

/-- Length-`d` tuples of naturals summing to exactly `k`, in a fixed order. -/
def tuplesSummingTo : ℕ → ℕ → List Mi
  | 0, k => if k = 0 then [[]] else []
  | d + 1, k => (List.range (k + 1)).flatMap
      (fun i => (tuplesSummingTo d (k - i)).map (fun t => i :: t))

/-- Full coefficient identifiers of a Cartesian Taylor expansion of
dimension `d` and order `p`.
Modelled from the spec (§3, the wrangler is not under `src/`): all
multi-indices with degree ≤ p, in a deterministic graded order. -/
def fullIds (d p : ℕ) : List Mi :=
  (List.range (p + 1)).flatMap (fun k => tuplesSummingTo d k)

/-- The multi-indices `s ≤ t` (componentwise), enumerated exactly as the
reference M2M path does: `gnitb(tgt_mi_plus_one)`. -/
def belowList (t : Mi) : List Mi := gnitb (t.map (· + 1))

section EnumLemmas

theorem mem_gnitb {ns : List ℕ} {s : Mi} :
    s ∈ gnitb ns ↔ List.Forall₂ (· < ·) s ns := by
  induction ns generalizing s with
  | nil =>
    simp only [gnitb, List.mem_singleton]
    constructor
    · rintro rfl; exact List.Forall₂.nil
    · intro h; cases h; rfl
  | cons n ns ih =>
    simp only [gnitb, List.mem_flatMap, List.mem_map, List.mem_range]
    constructor
    · rintro ⟨i, hi, t, ht, rfl⟩
      exact List.Forall₂.cons hi (ih.mp ht)
    · intro h
      cases h with
      | cons h1 h2 => exact ⟨_, h1, _, ih.mpr h2, rfl⟩

theorem nodup_gnitb (ns : List ℕ) : (gnitb ns).Nodup := by
  induction ns with
  | nil => simp [gnitb]
  | cons n ns ih =>
    refine List.nodup_flatMap.mpr ⟨fun i _ => ih.map (fun a b h => by injection h), ?_⟩
    refine (List.pairwise_lt_range _).imp ?_
    intro i j hij
    simp only [Function.onFun, List.disjoint_left]
    rintro x hx hy
    simp only [List.mem_map] at hx hy
    obtain ⟨t, _, rfl⟩ := hx
    obtain ⟨u, _, h⟩ := hy
    injection h with h1 _
    omega

theorem mem_tuplesSummingTo {d k : ℕ} {s : Mi} :
    s ∈ tuplesSummingTo d k ↔ s.length = d ∧ s.sum = k := by
  induction d generalizing k s with
  | zero =>
    unfold tuplesSummingTo
    constructor
    · intro h
      split at h
      · next hk => subst hk; simp at h; simp [h]
      · simp at h
    · rintro ⟨hl, hs⟩
      rw [List.length_eq_zero.mp hl] at hs ⊢
      simp only [List.sum_nil] at hs
      simp [← hs]
  | succ d ih =>
    unfold tuplesSummingTo
    simp only [List.mem_flatMap, List.mem_map, List.mem_range]
    constructor
    · rintro ⟨i, hi, t, ht, rfl⟩
      obtain ⟨hl, hs⟩ := ih.mp ht
      constructor
      · simp [hl]
      · simp [hs]; omega
    · intro ⟨hl, hs⟩
      match s with
      | x :: t =>
        refine ⟨x, by simp at hs; omega, t, ih.mpr ⟨by simpa using hl, by simp at hs; omega⟩, rfl⟩

theorem nodup_tuplesSummingTo (d k : ℕ) : (tuplesSummingTo d k).Nodup := by
  induction d generalizing k with
  | zero =>
    unfold tuplesSummingTo
    by_cases hk : k = 0 <;> simp [hk]
  | succ d ih =>
    unfold tuplesSummingTo
    refine List.nodup_flatMap.mpr ⟨fun i _ => (ih _).map (fun a b h => by injection h), ?_⟩
    refine (List.pairwise_lt_range _).imp ?_
    intro i j hij
    simp only [Function.onFun, List.disjoint_left]
    rintro x hx hy
    simp only [List.mem_map] at hx hy
    obtain ⟨t, _, rfl⟩ := hx
    obtain ⟨u, _, h⟩ := hy
    injection h with h1 _
    omega

theorem mem_fullIds {d p : ℕ} {s : Mi} :
    s ∈ fullIds d p ↔ s.length = d ∧ s.sum ≤ p := by
  unfold fullIds
  simp only [List.mem_flatMap, List.mem_range, mem_tuplesSummingTo]
  constructor
  · rintro ⟨k, hk, hl, rfl⟩; exact ⟨hl, by omega⟩
  · rintro ⟨hl, hs⟩; exact ⟨s.sum, by omega, hl, rfl⟩

theorem nodup_fullIds (d p : ℕ) : (fullIds d p).Nodup := by
  unfold fullIds
  refine List.nodup_flatMap.mpr ⟨fun k _ => nodup_tuplesSummingTo d k, ?_⟩
  refine (List.pairwise_lt_range _).imp ?_
  intro i j hij
  simp only [Function.onFun, List.disjoint_left]
  intro x hx hy
  have h1 := (mem_tuplesSummingTo.mp hx).2
  have h2 := (mem_tuplesSummingTo.mp hy).2
  omega

theorem mem_belowList {t s : Mi} : s ∈ belowList t ↔ miLe s t := by
  unfold belowList miLe
  rw [mem_gnitb]
  constructor
  · intro h
    have := List.forall₂_map_right_iff.mp h
    exact this.imp (fun {a b} hab => by omega)
  · intro h
    exact List.forall₂_map_right_iff.mpr (h.imp (fun {a b} hab => by omega))

theorem nodup_belowList (t : Mi) : (belowList t).Nodup := nodup_gnitb _

theorem miLe_length {s t : Mi} (h : miLe s t) : s.length = t.length :=
  List.Forall₂.length_eq h

theorem miLe_refl (t : Mi) : miLe t t := by
  unfold miLe
  induction t with
  | nil => exact List.Forall₂.nil
  | cons x xs ih => exact List.Forall₂.cons le_rfl ih

theorem miLe_sum_le {s t : Mi} (h : miLe s t) : s.sum ≤ t.sum := by
  induction h with
  | nil => simp
  | cons h1 _ ih => simp; omega

theorem miLe_getD {s t : Mi} (h : miLe s t) (i : ℕ) :
    s.getD i 0 ≤ t.getD i 0 := by
  induction h generalizing i with
  | nil => simp
  | cons h1 h2 ih =>
    cases i with
    | zero => simpa using h1
    | succ i => simpa using ih i

end EnumLemmas

/-! ### The M2M translator (`multipole.py`, `VolumeTaylorMultipoleExpansionBase.translate_from`)

The embedding is instantiated for the plain Volume Taylor family
(`VolumeTaylorMultipoleExpansion`), whose stored identifiers coincide with
the full identifiers and whose projection
`get_stored_mpole_coefficients_from_full` is the identity (spec §3/§4.1:
`stored ⊆ full`, with no compression for the plain family). -/

/-- Position of a multi-index in an identifier list: embedding of the
`mi_to_index` dictionaries that the source builds with `enumerate(...)`. -/
def idxIn (l : List Mi) (x : Mi) : ℕ :=
  match l with
  | [] => 0
  | y :: ys => if y = x then 0 else idxIn ys x + 1

/-- Dictionary lookup `coeffs[mi_to_index[mi]]`: `none` when `mi` is not a
key (the Python `KeyError` / `not in` test). -/
def getCoeff {F : Type} [Inhabited F] (ids : List Mi) (coeffs : List F) (mi : Mi) :
    Option F :=
  if mi ∈ ids then some (coeffs.getD (idxIn ids mi) default) else none

/-- `ExpansionTermsWrangler._split_coeffs_into_hyperplanes`.
Modelled from the spec (§3, §4.1; the wrangler is not under `src/`): a
deterministic partition of the full identifier set into groups keyed by
`(axis, fixed index along that axis)`; every full multi-index belongs to
exactly one group.  This model keys the plain Taylor identifier set by its
index along axis 0. -/
def splitCoeffsIntoHyperplanes (dim p : ℕ) : List (ℕ × List Mi) :=
  (List.range (p + 1)).map
    (fun c => (0, (fullIds dim p).filter (fun mi => mi.getD 0 0 = c)))

/-- Lines 276–291 of `multipole.py`: write each source coefficient lying in
a hyperplane perpendicular to `axis` into target-indexed storage, scaled by
`(src_rscale/tgt_rscale)^|mi|`; source identifiers absent from the target
index set, and target entries not covered by such a hyperplane, stay `0`.
The buffer `cur_dim_input_coeffs` (a Python list over the full target
identifiers) is embedded as a function on multi-indices; since the groups
partition the identifier set, each entry is written at most once. -/
def scatterForAxis (srcIds : List Mi) (C : List ℚ) (srcR tgtR : ℚ)
    (hyperplanes : List (ℕ × List Mi)) (axis : ℕ) : Mi → ℚ :=
  fun mi =>
    if ∃ g ∈ hyperplanes, g.1 = axis ∧ mi ∈ g.2 then
      match getCoeff srcIds C mi with
      | some c => c * (srcR / tgtR) ^ mi.sum
      | none => 0
    else 0

/-- The weight accumulated by the inner loop of a single M2M pass
(lines 320–324): product over `zip(tgt_mi, input_mi, dvec)` of
`(dist/tgt_rscale)^(n−k) / (n−k)!`. -/
def shiftWeight (dvec : List ℚ) (tgtR : ℚ) (t s : Mi) : ℚ :=
  ((t.zip (s.zip dvec)).map
    (fun p => (p.2.2 / tgtR) ^ (p.1 - p.2.1) / (Nat.factorial (p.1 - p.2.1) : ℚ))).prod

/-- One single-axis pass of the M2M translation (lines 306–328): output at
`t` sums the inputs at `mi_set_axis t d k` for `k ≤ t_d`, weighted. -/
def sweepPass (dvec : List ℚ) (tgtR : ℚ) (d : ℕ) (f : Mi → ℚ) : Mi → ℚ :=
  fun t =>
    ((List.range (t.getD d 0 + 1)).map
      (fun k => f (mi_set_axis t d k) * shiftWeight dvec tgtR t (mi_set_axis t d k))).sum

/-- The dimension ordering used for hyperplane direction `axis`
(lines 302–303): all other axes first, `axis` itself last. -/
def dimsForAxis (dim axis : ℕ) : List ℕ :=
  List.range axis ++ List.range' (axis + 1) (dim - (axis + 1)) ++ [axis]

/-- The chain of single-axis passes (the `for d in dims` loop). -/
def runPasses (dvec : List ℚ) (tgtR : ℚ) (ds : List ℕ) (f : Mi → ℚ) : Mi → ℚ :=
  ds.foldl (fun g d => sweepPass dvec tgtR d g) f

/-- The body of one iteration of the `for axis in range(self.dim)` loop
(lines 270–333): scatter, the all-zero skip (lines 293–294), and the chain
of single-axis passes, read off at target index `t`. -/
def axisContribution (srcIds tgtIds : List Mi) (C : List ℚ) (srcR tgtR : ℚ)
    (hplanes : List (ℕ × List Mi)) (dim : ℕ) (dvec : List ℚ) (axis : ℕ)
    (t : Mi) : ℚ :=
  if ∀ mi ∈ tgtIds, scatterForAxis srcIds C srcR tgtR hplanes axis mi = 0 then 0
  else runPasses dvec tgtR (dimsForAxis dim axis)
        (scatterForAxis srcIds C srcR tgtR hplanes axis) t

/-- The default (fast) path of
`VolumeTaylorMultipoleExpansionBase.translate_from` (lines 265–333 and the
final projection on lines 375–377, which is the identity for the plain
family).  `srcDim, pSrc` describe `src_expansion`; `dim, pTgt` describe
`self`.  The per-axis buffers are summed into `result` entrywise. -/
def translateFromFast (srcDim pSrc dim pTgt : ℕ) (C : List ℚ)
    (srcR : ℚ) (dvec : List ℚ) (tgtR : ℚ) : List ℚ :=
  (fullIds dim pTgt).map (fun t =>
    ((List.range dim).map (fun axis =>
      axisContribution (fullIds srcDim pSrc) (fullIds dim pTgt) C srcR tgtR
        (splitCoeffsIntoHyperplanes dim pTgt) dim dvec axis t)).sum)

/-- The retained reference path of `translate_from`
(`_fast_version=False`, lines 335–372): a direct double sum over source
multi-indices below each target multi-index.  The in-place update
`src_coeff_exprs[i] *= mi_factorial(mi)` is modelled by explicit state
passing: the second component is the caller's source coefficient list as
left after the call. -/
def translateFromSlow (srcDim pSrc dim pTgt : ℕ) (C : List ℚ)
    (srcR : ℚ) (dvec : List ℚ) (tgtR : ℚ) : List ℚ × List ℚ :=
  let srcIds := fullIds srcDim pSrc
  let C2 := List.zipWith (fun mi c => c * (mi_factorial mi : ℚ)) srcIds C
              ++ C.drop srcIds.length
  let result := (fullIds dim pTgt).map (fun t =>
    (((belowList t).map (fun s =>
      match getCoeff srcIds C2 s with
      | none => 0
      | some c =>
          c * ((List.range dim).map (fun i =>
                (Nat.choose (t.getD i 0) (s.getD i 0) : ℚ) *
                  (dvec.getD i 0 / tgtR) ^ (t.getD i 0 - s.getD i 0))).prod
            * (srcR / tgtR) ^ s.sum)).sum) / (mi_factorial t : ℚ))
  (result, C2)

/-- Per-axis weight of the spec formula (§4.2):
`Π_k (dvec_k/tgt_rscale)^(t_k−s_k) / (t_k−s_k)!`. -/
def specWeight (dim : ℕ) (dvec : List ℚ) (tgtR : ℚ) (t s : Mi) : ℚ :=
  ((List.range dim).map (fun k =>
    (dvec.getD k 0 / tgtR) ^ (t.getD k 0 - s.getD k 0) /
      (Nat.factorial (t.getD k 0 - s.getD k 0) : ℚ))).prod

/-- The value the spec ascribes to target multi-index `t` (§4.2):
`T[t] = Σ_{s ≤ t, s ∈ stored(src)} C[s] · Π_k (dvec_k/tgt_rscale)^(t_k−s_k)/(t_k−s_k)! · (src_rscale/tgt_rscale)^{|s|}`. -/
def m2mSpecValue (srcDim pSrc dim : ℕ) (C : List ℚ) (srcR : ℚ)
    (dvec : List ℚ) (tgtR : ℚ) (t : Mi) : ℚ :=
  (((fullIds srcDim pSrc).zip C).map (fun p =>
    if miLe p.1 t then
      p.2 * specWeight dim dvec tgtR t p.1 * (srcR / tgtR) ^ p.1.sum
    else 0)).sum

section Helpers

variable {α : Type} {β : Type} {M : Type} [AddCommMonoid M]

theorem listSum_congr {l : List α} {f g : α → M}
    (h : ∀ x ∈ l, f x = g x) : (l.map f).sum = (l.map g).sum := by
  rw [List.map_congr_left h]

theorem listSum_flatMap (l : List α) (g : α → List β) (F : β → M) :
    ((l.flatMap g).map F).sum = (l.map (fun a => ((g a).map F).sum)).sum := by
  induction l with
  | nil => simp
  | cons a l ih => simp [List.flatMap_cons, ih]

theorem listSum_comm (l₁ : List α) (l₂ : List β) (g : α → β → M) :
    (l₁.map (fun a => (l₂.map (g a)).sum)).sum
      = (l₂.map (fun b => (l₁.map (fun a => g a b)).sum)).sum := by
  induction l₁ with
  | nil => simp
  | cons a l ih =>
    simp only [List.map_cons, List.sum_cons, ih, ← List.sum_map_add]

theorem listSum_range_eq (n : ℕ) (f : ℕ → M) :
    ((List.range n).map f).sum = ∑ i in Finset.range n, f i := by
  induction n with
  | zero => simp
  | succ n ih => rw [List.range_succ, Finset.sum_range_succ, List.map_append,
      List.sum_append, ih]; simp

theorem listSum_filter_eq (l : List α) (p : α → Prop) [DecidablePred p] (F : α → M) :
    (l.map (fun x => if p x then F x else 0)).sum = ((l.filter (fun x => decide (p x))).map F).sum := by
  induction l with
  | nil => simp
  | cons a l ih =>
    by_cases h : p a <;> simp [List.filter_cons, h, ih]

/-- Two duplicate-free lists carrying a function that vanishes outside the
other list sum to the same value. -/
theorem listSum_exchange [BEq α] [LawfulBEq α] {l₁ l₂ : List α} (h₁ : l₁.Nodup) (h₂ : l₂.Nodup)
    (F : α → M) :
    (l₁.map (fun x => if x ∈ l₂ then F x else 0)).sum
      = (l₂.map (fun x => if x ∈ l₁ then F x else 0)).sum := by
  rw [listSum_filter_eq, listSum_filter_eq]
  have hperm : List.Perm (l₁.filter (fun x => decide (x ∈ l₂))) (l₂.filter (fun x => decide (x ∈ l₁))) := by
    rw [List.perm_ext_iff_of_nodup (h₁.filter _) (h₂.filter _)]
    intro a
    simp only [List.mem_filter, decide_eq_true_eq]
    exact ⟨fun ⟨u, v⟩ => ⟨v, u⟩, fun ⟨u, v⟩ => ⟨v, u⟩⟩
  exact (hperm.map F).sum_eq

theorem miGetD_set_ne {l : Mi} {d e : ℕ} (h : e ≠ d) (k : ℕ) :
    (l.set d k).getD e 0 = l.getD e 0 := by
  induction l generalizing d e with
  | nil => simp
  | cons x xs ih =>
    cases d with
    | zero => cases e with
      | zero => omega
      | succ e => simp
    | succ d => cases e with
      | zero => simp
      | succ e => simpa using ih (by omega)

theorem miGetD_set_self {l : Mi} {d : ℕ} (h : d < l.length) (k : ℕ) :
    (l.set d k).getD d 0 = k := by
  induction l generalizing d with
  | nil => simp at h
  | cons x xs ih =>
    cases d with
    | zero => simp
    | succ d => simpa using ih (by simpa using h)

theorem mi_ext {s t : Mi} (hl : s.length = t.length)
    (h : ∀ i, s.getD i 0 = t.getD i 0) : s = t := by
  induction s generalizing t with
  | nil => cases t with
    | nil => rfl
    | cons y ys => simp at hl
  | cons x xs ih =>
    cases t with
    | nil => simp at hl
    | cons y ys =>
      have h0 := h 0
      simp only [List.getD_cons_zero] at h0
      have := ih (t := ys) (by simpa using hl) (fun i => by simpa using h (i + 1))
      rw [h0, this]

theorem mi_set_getD_self {l : Mi} {d : ℕ} : l.set d (l.getD d 0) = l := by
  induction l generalizing d with
  | nil => simp
  | cons x xs ih =>
    cases d with
    | zero => simp
    | succ d => simpa using ih

theorem mi_sum_eq_range (s : Mi) :
    s.sum = ((List.range s.length).map (fun k => s.getD k 0)).sum := by
  induction s with
  | nil => simp
  | cons x xs ih =>
    rw [List.sum_cons, List.length_cons, List.range_succ_eq_map]
    simp only [List.map_cons, List.sum_cons, List.getD_cons_zero, List.map_map]
    congr 1

theorem miProd_map_eq_range {R : Type} [CommMonoid R] (s : Mi) (g : ℕ → R) :
    (s.map g).prod = ((List.range s.length).map (fun k => g (s.getD k 0))).prod := by
  induction s with
  | nil => simp
  | cons x xs ih =>
    rw [List.map_cons, List.prod_cons, List.length_cons, List.range_succ_eq_map]
    simp only [List.map_cons, List.prod_cons, List.getD_cons_zero, List.map_map]
    congr 1

theorem idxIn_lt_length {l : List Mi} {x : Mi} (h : x ∈ l) :
    idxIn l x < l.length := by
  induction l with
  | nil => simp at h
  | cons y ys ih =>
    unfold idxIn
    by_cases hy : y = x
    · simp [hy]
    · have : x ∈ ys := by
        rcases List.mem_cons.mp h with h' | h'
        · exact absurd h'.symm hy
        · exact h'
      simp only [if_neg hy, List.length_cons]
      exact Nat.succ_lt_succ (ih this)

theorem getD_idxIn {l : List Mi} {x : Mi} (h : x ∈ l) :
    l.getD (idxIn l x) [] = x := by
  induction l with
  | nil => simp at h
  | cons y ys ih =>
    unfold idxIn
    by_cases hy : y = x
    · simp [hy]
    · have : x ∈ ys := by
        rcases List.mem_cons.mp h with h' | h'
        · exact absurd h'.symm hy
        · exact h'
      simp only [if_neg hy, List.getD_cons_succ]
      exact ih this

/-- Summing a function of dictionary key and value over `zip(ids, coeffs)`
equals summing over the key list with an explicit indexed lookup. -/
theorem zipSum_eq {F : Type} [Inhabited F] (ids : List Mi) (C : List F)
    (hn : ids.Nodup) (hl : C.length = ids.length) (G : Mi → F → M) :
    ((ids.zip C).map (fun p => G p.1 p.2)).sum
      = (ids.map (fun s => G s (C.getD (idxIn ids s) default))).sum := by
  induction ids generalizing C with
  | nil => simp
  | cons s0 ids ih =>
    cases C with
    | nil => simp at hl
    | cons c0 C =>
      simp only [List.zip_cons_cons, List.map_cons, List.sum_cons]
      unfold idxIn
      simp only [if_pos rfl, List.getD_cons_zero]
      congr 1
      rw [ih C (List.Nodup.of_cons hn) (by simpa using hl)]
      apply listSum_congr
      intro x hx
      have hne : s0 ≠ x := fun h => (List.nodup_cons.mp hn).1 (h ▸ hx)
      rw [if_neg hne, List.getD_cons_succ]

/-- Summing `if key = u then value else 0` over `zip(ids, coeffs)` picks the
coefficient stored for `u`. -/
theorem zipSum_pick {F : Type} [Inhabited F] [AddCommMonoid F] (ids : List Mi) (C : List F)
    (hn : ids.Nodup) (hl : C.length = ids.length) {u : Mi} (hu : u ∈ ids) :
    ((ids.zip C).map (fun p => if p.1 = u then p.2 else 0)).sum
      = C.getD (idxIn ids u) default := by
  induction ids generalizing C with
  | nil => simp at hu
  | cons s0 ids ih =>
    cases C with
    | nil => simp at hl
    | cons c0 C =>
      simp only [List.zip_cons_cons, List.map_cons, List.sum_cons]
      unfold idxIn
      by_cases h0 : s0 = u
      · rw [if_pos h0, if_pos h0, List.getD_cons_zero]
        have : ∀ p ∈ ids.zip C, (if p.1 = u then p.2 else 0) = 0 := by
          intro p hp
          have hp1 : p.1 ∈ ids := List.of_mem_zip hp |>.1
          have : p.1 ≠ u := fun he =>
            (List.nodup_cons.mp hn).1 (h0 ▸ he ▸ hp1)
          rw [if_neg this]
        rw [listSum_congr this]
        simp
      · rw [if_neg h0, if_neg h0, List.getD_cons_succ]
        have hu' : u ∈ ids := by
          rcases List.mem_cons.mp hu with h' | h'
          · exact absurd h'.symm h0
          · exact h'
        rw [ih C (List.Nodup.of_cons hn) (by simpa using hl) hu']
        simp

end Helpers

/-! ### Correctness of the chained single-axis passes -/

/-- The multi-indices reachable from `t` by lowering exactly the axes in
`ds` (the intermediate summation domain of the chained passes). -/
def restrictedTuples (ds : List ℕ) (t : Mi) : List Mi :=
  match ds with
  | [] => [t]
  | d :: rest => (restrictedTuples rest t).flatMap
      (fun s => (List.range (t.getD d 0 + 1)).map (fun k => mi_set_axis s d k))

/-- The weight accumulated on the axes in `ds`. -/
def passWeight (dvec : List ℚ) (tgtR : ℚ) (ds : List ℕ) (t s : Mi) : ℚ :=
  (ds.map (fun d => (dvec.getD d 0 / tgtR) ^ (t.getD d 0 - s.getD d 0) /
      (Nat.factorial (t.getD d 0 - s.getD d 0) : ℚ))).prod

section SweepLemmas

theorem restrictedTuples_length {ds : List ℕ} {t s : Mi}
    (h : s ∈ restrictedTuples ds t) : s.length = t.length := by
  induction ds generalizing s with
  | nil => simp only [restrictedTuples, List.mem_singleton] at h; rw [h]
  | cons d rest ih =>
    simp only [restrictedTuples, List.mem_flatMap, List.mem_map] at h
    obtain ⟨s0, hs0, k, _, rfl⟩ := h
    simpa [mi_set_axis] using ih hs0

theorem restrictedTuples_getD_not_mem {ds : List ℕ} {t s : Mi}
    (h : s ∈ restrictedTuples ds t) {e : ℕ} (he : e ∉ ds) :
    s.getD e 0 = t.getD e 0 := by
  induction ds generalizing s with
  | nil => simp only [restrictedTuples, List.mem_singleton] at h; rw [h]
  | cons d rest ih =>
    simp only [restrictedTuples, List.mem_flatMap, List.mem_map] at h
    obtain ⟨s0, hs0, k, _, rfl⟩ := h
    have hne : e ≠ d := fun hc => he (hc ▸ List.mem_cons_self d rest)
    rw [mi_set_axis, miGetD_set_ne hne]
    exact ih hs0 (fun hc => he (List.mem_cons_of_mem d hc))

theorem restrictedTuples_getD_le {ds : List ℕ} {t s : Mi}
    (h : s ∈ restrictedTuples ds t) (e : ℕ) :
    s.getD e 0 ≤ t.getD e 0 := by
  induction ds generalizing s with
  | nil => simp only [restrictedTuples, List.mem_singleton] at h; rw [h]
  | cons d rest ih =>
    simp only [restrictedTuples, List.mem_flatMap, List.mem_map, List.mem_range] at h
    obtain ⟨s0, hs0, k, hk, rfl⟩ := h
    by_cases he : e = d
    · subst he
      by_cases hlt : e < s0.length
      · rw [mi_set_axis, miGetD_set_self hlt]; omega
      · rw [mi_set_axis, List.set_eq_of_length_le (by omega)]
        exact ih hs0
    · rw [mi_set_axis, miGetD_set_ne he]
      exact ih hs0

theorem shiftWeight_refl (dvec : List ℚ) (tgtR : ℚ) (s : Mi) :
    shiftWeight dvec tgtR s s = 1 := by
  unfold shiftWeight
  induction s generalizing dvec with
  | nil => simp
  | cons x xs ih =>
    cases dvec with
    | nil => simp
    | cons dv dvs => simpa using ih dvs

theorem shiftWeight_set (dvec : List ℚ) (tgtR : ℚ) (s : Mi) (d k : ℕ)
    (hd : d < s.length) (hdv : dvec.length = s.length) :
    shiftWeight dvec tgtR s (mi_set_axis s d k)
      = (dvec.getD d 0 / tgtR) ^ (s.getD d 0 - k) /
          (Nat.factorial (s.getD d 0 - k) : ℚ) := by
  induction s generalizing d dvec with
  | nil => simp at hd
  | cons x xs ih =>
    cases dvec with
    | nil => simp at hdv
    | cons dv dvs =>
      cases d with
      | zero =>
        simp only [mi_set_axis, List.set_cons_zero, shiftWeight, List.zip_cons_cons,
          List.map_cons, List.prod_cons, List.getD_cons_zero]
        have htail : ((xs.zip (xs.zip dvs)).map
            (fun p => (p.2.2 / tgtR) ^ (p.1 - p.2.1) / (Nat.factorial (p.1 - p.2.1) : ℚ))).prod
            = shiftWeight dvs tgtR xs xs := rfl
        rw [htail, shiftWeight_refl]
        ring
      | succ d =>
        simp only [mi_set_axis, List.set_cons_succ, shiftWeight, List.zip_cons_cons,
          List.map_cons, List.prod_cons, List.getD_cons_succ]
        have htail : ((xs.zip ((xs.set d k).zip dvs)).map
            (fun p => (p.2.2 / tgtR) ^ (p.1 - p.2.1) / (Nat.factorial (p.1 - p.2.1) : ℚ))).prod
            = shiftWeight dvs tgtR xs (mi_set_axis xs d k) := rfl
        rw [htail, ih dvs d (by simpa using hd) (by simpa using hdv)]
        simp

theorem passWeight_set_ne (dvec : List ℚ) (tgtR : ℚ) {ds : List ℕ} {d : ℕ}
    (hd : d ∉ ds) (t s : Mi) (k : ℕ) :
    passWeight dvec tgtR ds t (mi_set_axis s d k) = passWeight dvec tgtR ds t s := by
  unfold passWeight
  apply congrArg
  apply List.map_congr_left
  intro e he
  have hne : e ≠ d := fun hc => hd (hc ▸ he)
  rw [mi_set_axis, miGetD_set_ne hne]

theorem runPasses_eq (dvec : List ℚ) (tgtR : ℚ) (ds : List ℕ) (t : Mi)
    (hnd : ds.Nodup) (hlt : ∀ d ∈ ds, d < t.length) (hdv : dvec.length = t.length)
    (f : Mi → ℚ) :
    runPasses dvec tgtR ds f t
      = ((restrictedTuples ds t).map
          (fun s => f s * passWeight dvec tgtR ds t s)).sum := by
  induction ds generalizing f with
  | nil => simp [runPasses, restrictedTuples, passWeight]
  | cons d rest ih =>
    have hd_rest : d ∉ rest := (List.nodup_cons.mp hnd).1
    have hrest : rest.Nodup := (List.nodup_cons.mp hnd).2
    have hlt' : ∀ e ∈ rest, e < t.length := fun e he => hlt e (List.mem_cons_of_mem d he)
    have hstep : runPasses dvec tgtR (d :: rest) f t
        = runPasses dvec tgtR rest (sweepPass dvec tgtR d f) t := rfl
    have hcons : restrictedTuples (d :: rest) t
        = (restrictedTuples rest t).flatMap
            (fun s => (List.range (t.getD d 0 + 1)).map (fun k => mi_set_axis s d k)) := rfl
    rw [hstep, ih hrest hlt' (sweepPass dvec tgtR d f), hcons, listSum_flatMap]
    apply listSum_congr
    intro s hs
    have hslen : s.length = t.length := restrictedTuples_length hs
    have hsd : s.getD d 0 = t.getD d 0 := restrictedTuples_getD_not_mem hs hd_rest
    have hdlt : d < s.length := by rw [hslen]; exact hlt d (List.mem_cons_self d rest)
    have hsweep : sweepPass dvec tgtR d f s
        = ((List.range (t.getD d 0 + 1)).map
            (fun k => f (mi_set_axis s d k) * shiftWeight dvec tgtR s (mi_set_axis s d k))).sum := by
      unfold sweepPass
      rw [hsd]
    rw [hsweep, ← List.sum_map_mul_right, List.map_map]
    apply listSum_congr
    intro k hk
    simp only [Function.comp]
    rw [shiftWeight_set dvec tgtR s d k hdlt (by omega), hsd]
    have hpwcons : ∀ u : Mi, passWeight dvec tgtR (d :: rest) t u
        = ((dvec.getD d 0 / tgtR) ^ (t.getD d 0 - u.getD d 0) /
            (Nat.factorial (t.getD d 0 - u.getD d 0) : ℚ)) * passWeight dvec tgtR rest t u := by
      intro u
      unfold passWeight
      rw [List.map_cons, List.prod_cons]
    rw [hpwcons, passWeight_set_ne dvec tgtR hd_rest t s k,
      mi_set_axis, miGetD_set_self hdlt]
    ring

theorem mem_restrictedTuples {ds : List ℕ} {t : Mi} (hnd : ds.Nodup)
    (hlt : ∀ d ∈ ds, d < t.length) {s : Mi} :
    s ∈ restrictedTuples ds t ↔
      s.length = t.length ∧ (∀ e ∈ ds, s.getD e 0 ≤ t.getD e 0) ∧
        (∀ e, e ∉ ds → s.getD e 0 = t.getD e 0) := by
  constructor
  · intro h
    exact ⟨restrictedTuples_length h,
      fun e _ => restrictedTuples_getD_le h e,
      fun e he => restrictedTuples_getD_not_mem h he⟩
  · intro ⟨hlen, hle, heq⟩
    induction ds generalizing s with
    | nil =>
      have : s = t := mi_ext hlen (fun i => heq i (List.not_mem_nil i))
      simp [restrictedTuples, this]
    | cons d rest ih =>
      have hd_rest : d ∉ rest := (List.nodup_cons.mp hnd).1
      have hdlt : d < s.length := by
        rw [hlen]; exact hlt d (List.mem_cons_self d rest)
      simp only [restrictedTuples, List.mem_flatMap, List.mem_map, List.mem_range]
      refine ⟨s.set d (t.getD d 0), ?_, s.getD d 0, ?_, ?_⟩
      · exact ih (List.nodup_cons.mp hnd).2
          (fun e he => hlt e (List.mem_cons_of_mem d he))
          (by simpa using hlen)
          (fun e he => by
            have hne : e ≠ d := fun hc => hd_rest (hc ▸ he)
            rw [miGetD_set_ne hne]
            exact hle e (List.mem_cons_of_mem d he))
          (fun e he => by
            by_cases hed : e = d
            · subst hed; rw [miGetD_set_self hdlt]
            · rw [miGetD_set_ne hed]
              exact heq e (fun hc => by
                rcases List.mem_cons.mp hc with h1 | h1
                · exact hed h1
                · exact he h1))
      · have := hle d (List.mem_cons_self d rest); omega
      · rw [mi_set_axis, List.set_set, mi_set_getD_self]

theorem nodup_restrictedTuples {ds : List ℕ} {t : Mi} (hnd : ds.Nodup)
    (hlt : ∀ d ∈ ds, d < t.length) :
    (restrictedTuples ds t).Nodup := by
  induction ds with
  | nil => simp [restrictedTuples]
  | cons d rest ih =>
    have hd_rest : d ∉ rest := (List.nodup_cons.mp hnd).1
    have hrest : rest.Nodup := (List.nodup_cons.mp hnd).2
    have hlt' : ∀ e ∈ rest, e < t.length := fun e he => hlt e (List.mem_cons_of_mem d he)
    unfold restrictedTuples
    refine List.nodup_flatMap.mpr ⟨?_, ?_⟩
    · intro s hs
      have hdlt : d < s.length := by
        rw [restrictedTuples_length hs]
        exact hlt d (List.mem_cons_self d rest)
      refine (List.nodup_range _).map ?_
      intro a b hab
      simp only [mi_set_axis] at hab
      have ha := miGetD_set_self (l := s) (d := d) hdlt a
      have hb := miGetD_set_self (l := s) (d := d) hdlt b
      rw [← ha, hab, hb]
    · refine List.Pairwise.imp_of_mem ?_ (ih hrest hlt')
      intro s1 s2 hm1 hm2 hne
      simp only [Function.onFun, List.disjoint_left]
      rintro x hx hy
      simp only [List.mem_map, List.mem_range] at hx hy
      obtain ⟨k1, _, rfl⟩ := hx
      obtain ⟨k2, _, heq2⟩ := hy
      apply hne
      have hl1 : s1.length = t.length := restrictedTuples_length hm1
      have hl2 : s2.length = t.length := restrictedTuples_length hm2
      have hd1 : s1.getD d 0 = t.getD d 0 := restrictedTuples_getD_not_mem hm1 hd_rest
      have hd2 : s2.getD d 0 = t.getD d 0 := restrictedTuples_getD_not_mem hm2 hd_rest
      refine mi_ext (by omega) ?_
      intro e
      by_cases hed : e = d
      · subst hed; rw [hd1, hd2]
      · have h1 := miGetD_set_ne (l := s1) (d := d) hed k1
        have h2 := miGetD_set_ne (l := s2) (d := d) hed k2
        simp only [mi_set_axis] at heq2
        rw [← h1, ← heq2, h2]

end SweepLemmas

section FastPath

theorem listSum_of_mem_iff {α M : Type} [AddCommMonoid M] [DecidableEq α]
    {l₁ l₂ : List α} (h₁ : l₁.Nodup) (h₂ : l₂.Nodup)
    (hm : ∀ x, x ∈ l₁ ↔ x ∈ l₂) (F : α → M) :
    (l₁.map F).sum = (l₂.map F).sum :=
  ((((List.perm_ext_iff_of_nodup h₁ h₂).mpr hm)).map F).sum_eq

theorem miLe_iff_getD {s t : Mi} :
    miLe s t ↔ s.length = t.length ∧ ∀ i, s.getD i 0 ≤ t.getD i 0 := by
  constructor
  · intro h
    exact ⟨miLe_length h, miLe_getD h⟩
  · intro ⟨hl, hp⟩
    unfold miLe
    induction s generalizing t with
    | nil =>
      cases t with
      | nil => exact List.Forall₂.nil
      | cons y ys => simp at hl
    | cons x xs ih =>
      cases t with
      | nil => simp at hl
      | cons y ys =>
        refine List.Forall₂.cons (by simpa using hp 0) ?_
        exact ih (by simpa using hl) (fun i => by simpa using hp (i + 1))

theorem getD_le_sum (s : Mi) (i : ℕ) : s.getD i 0 ≤ s.sum := by
  induction s generalizing i with
  | nil => simp
  | cons x xs ih =>
    cases i with
    | zero => simp
    | succ i =>
      simp only [List.getD_cons_succ, List.sum_cons]
      exact le_trans (ih i) (by omega)

theorem mem_dimsForAxis {dim axis e : ℕ} (h : axis < dim) :
    e ∈ dimsForAxis dim axis ↔ e < dim := by
  unfold dimsForAxis
  simp only [List.mem_append, List.mem_range, List.mem_range'_1, List.mem_singleton]
  omega

theorem nodup_dimsForAxis {dim axis : ℕ} (h : axis < dim) :
    (dimsForAxis dim axis).Nodup := by
  unfold dimsForAxis
  refine (List.Nodup.append (List.Nodup.append (List.nodup_range axis)
    (List.nodup_range' _ _) ?_) (List.nodup_singleton axis) ?_)
  · intro e he1 he2
    simp only [List.mem_range] at he1
    simp only [List.mem_range'_1] at he2
    omega
  · intro e he1 he2
    simp only [List.mem_append, List.mem_range, List.mem_range'_1] at he1
    simp only [List.mem_singleton] at he2
    omega

theorem dimsForAxis_perm {dim axis : ℕ} (h : axis < dim) :
    List.Perm (dimsForAxis dim axis) (List.range dim) := by
  refine (List.perm_ext_iff_of_nodup (nodup_dimsForAxis h) (List.nodup_range dim)).mpr ?_
  intro e
  rw [mem_dimsForAxis h, List.mem_range]

theorem passWeight_dims_eq_specWeight {dim axis : ℕ} (h : axis < dim)
    (dvec : List ℚ) (tgtR : ℚ) (t s : Mi) :
    passWeight dvec tgtR (dimsForAxis dim axis) t s = specWeight dim dvec tgtR t s := by
  unfold passWeight specWeight
  exact (((dimsForAxis_perm h).map _).prod_eq)

theorem mem_restricted_dims {dim axis : ℕ} (hax : axis < dim) {t : Mi}
    (hlen : t.length = dim) {s : Mi} :
    s ∈ restrictedTuples (dimsForAxis dim axis) t ↔ miLe s t := by
  rw [mem_restrictedTuples (nodup_dimsForAxis hax)
    (fun d hd => by rw [hlen]; exact (mem_dimsForAxis hax).mp hd), miLe_iff_getD]
  constructor
  · intro ⟨h1, h2, h3⟩
    refine ⟨h1, fun i => ?_⟩
    by_cases hi : i ∈ dimsForAxis dim axis
    · exact h2 i hi
    · rw [h3 i hi]
  · intro ⟨h1, h2⟩
    refine ⟨h1, fun e _ => h2 e, fun e he => ?_⟩
    have : ¬ e < dim := fun hc => he ((mem_dimsForAxis hax).mpr hc)
    rw [List.getD_eq_default _ _ (by omega), List.getD_eq_default _ _ (by omega)]

/-- The value a scattered source coefficient carries (lines 288–291). -/
def scatterValue (srcIds : List Mi) (C : List ℚ) (srcR tgtR : ℚ) (s : Mi) : ℚ :=
  if s ∈ srcIds then C.getD (idxIn srcIds s) default * (srcR / tgtR) ^ s.sum else 0

theorem scatterForAxis_eq {srcIds : List Mi} {C : List ℚ} {srcR tgtR : ℚ}
    {dim pTgt : ℕ} {axis : ℕ} {s : Mi} (hs : s ∈ fullIds dim pTgt) :
    scatterForAxis srcIds C srcR tgtR (splitCoeffsIntoHyperplanes dim pTgt) axis s
      = if axis = 0 then scatterValue srcIds C srcR tgtR s else 0 := by
  obtain ⟨hlen, hsum⟩ := mem_fullIds.mp hs
  unfold scatterForAxis splitCoeffsIntoHyperplanes
  have hcond : (∃ g ∈ (List.range (pTgt + 1)).map
      (fun c => ((0 : ℕ), (fullIds dim pTgt).filter (fun mi => mi.getD 0 0 = c))),
        g.1 = axis ∧ s ∈ g.2) ↔ axis = 0 := by
    constructor
    · rintro ⟨g, hg, hax, _⟩
      simp only [List.mem_map, List.mem_range] at hg
      obtain ⟨c, _, rfl⟩ := hg
      exact hax.symm
    · rintro rfl
      refine ⟨(0, (fullIds dim pTgt).filter (fun mi => mi.getD 0 0 = s.getD 0 0)), ?_, rfl, ?_⟩
      · simp only [List.mem_map, List.mem_range]
        exact ⟨s.getD 0 0, by have := getD_le_sum s 0; omega, rfl⟩
      · simp only [List.mem_filter, decide_eq_true_eq]
        exact ⟨hs, by simp⟩
  by_cases hax : axis = 0
  · rw [if_pos (hcond.mpr hax), if_pos hax]
    unfold getCoeff scatterValue
    by_cases hmem : s ∈ srcIds
    · simp [hmem]
    · simp [hmem]
  · rw [if_neg (fun hc => hax (hcond.mp hc)), if_neg hax]

theorem listSum_range_if_zero {M : Type} [AddCommMonoid M] {n : ℕ} (hn : 0 < n) (v : M) :
    ((List.range n).map (fun a => if a = 0 then v else 0)).sum = v := by
  cases n with
  | zero => omega
  | succ m =>
    rw [List.range_succ_eq_map]
    simp only [List.map_cons, List.sum_cons, List.map_map]
    have hz : ((List.range m).map ((fun a => if a = 0 then v else 0) ∘ Nat.succ)).sum
        = 0 := by
      apply List.sum_eq_zero
      intro x hx
      simp only [List.mem_map] at hx
      obtain ⟨y, _, rfl⟩ := hx
      simp [Function.comp]
    rw [hz]
    simp

/-- The inner form both M2M paths reduce to: a weighted sum over all
multi-indices below the target one. -/
def m2mKernel (srcIds : List Mi) (C : List ℚ) (srcR : ℚ) (dim : ℕ)
    (dvec : List ℚ) (tgtR : ℚ) (t : Mi) : ℚ :=
  ((belowList t).map (fun s =>
    scatterValue srcIds C srcR tgtR s * specWeight dim dvec tgtR t s)).sum

theorem axisContribution_eq {srcDim pSrc dim pTgt : ℕ}
    {C : List ℚ} {srcR tgtR : ℚ} {dvec : List ℚ} (hdv : dvec.length = dim)
    {axis : ℕ} (hax : axis < dim) {t : Mi} (ht : t ∈ fullIds dim pTgt) :
    axisContribution (fullIds srcDim pSrc) (fullIds dim pTgt) C srcR tgtR
        (splitCoeffsIntoHyperplanes dim pTgt) dim dvec axis t
      = ((belowList t).map (fun s =>
          scatterForAxis (fullIds srcDim pSrc) C srcR tgtR
              (splitCoeffsIntoHyperplanes dim pTgt) axis s
            * specWeight dim dvec tgtR t s)).sum := by
  obtain ⟨htlen, htsum⟩ := mem_fullIds.mp ht
  have hbelow_mem : ∀ s ∈ belowList t, s ∈ fullIds dim pTgt := by
    intro s hs
    have hle := mem_belowList.mp hs
    exact mem_fullIds.mpr ⟨by rw [miLe_length hle, htlen],
      le_trans (miLe_sum_le hle) htsum⟩
  unfold axisContribution
  split
  · next hzero =>
    symm
    apply List.sum_eq_zero
    intro x hx
    simp only [List.mem_map] at hx
    obtain ⟨s, hs, rfl⟩ := hx
    rw [hzero s (hbelow_mem s hs), zero_mul]
  · rw [runPasses_eq dvec tgtR (dimsForAxis dim axis) t (nodup_dimsForAxis hax)
      (fun d hd => by rw [htlen]; exact (mem_dimsForAxis hax).mp hd)
      (by omega)]
    rw [listSum_of_mem_iff
      (nodup_restrictedTuples (nodup_dimsForAxis hax)
        (fun d hd => by rw [htlen]; exact (mem_dimsForAxis hax).mp hd))
      (nodup_belowList t)
      (fun s => by rw [mem_restricted_dims hax htlen, mem_belowList])]
    apply listSum_congr
    intro s hs
    rw [passWeight_dims_eq_specWeight hax]

theorem translateFromFast_eq_kernel (srcDim pSrc dim pTgt : ℕ) (hdim : 0 < dim)
    (C : List ℚ) (srcR tgtR : ℚ) (dvec : List ℚ) (hdv : dvec.length = dim) :
    translateFromFast srcDim pSrc dim pTgt C srcR dvec tgtR
      = (fullIds dim pTgt).map
          (m2mKernel (fullIds srcDim pSrc) C srcR dim dvec tgtR) := by
  unfold translateFromFast
  apply List.map_congr_left
  intro t ht
  rw [listSum_congr (fun axis hax =>
    axisContribution_eq hdv (List.mem_range.mp hax) ht)]
  rw [listSum_comm]
  unfold m2mKernel
  apply listSum_congr
  intro s hs
  have hsmem : s ∈ fullIds dim pTgt := by
    have hle := mem_belowList.mp hs
    have := mem_fullIds.mp ht
    exact mem_fullIds.mpr ⟨by rw [miLe_length hle, this.1],
      le_trans (miLe_sum_le hle) this.2⟩
  rw [listSum_congr (fun axis _ => by rw [scatterForAxis_eq hsmem])]
  rw [List.sum_map_mul_right, listSum_range_if_zero hdim]

end FastPath

section KernelForm

theorem kernel_eq_specValue (srcDim pSrc dim : ℕ) (C : List ℚ)
    (hC : C.length = (fullIds srcDim pSrc).length)
    (srcR tgtR : ℚ) (dvec : List ℚ) (t : Mi) :
    m2mKernel (fullIds srcDim pSrc) C srcR dim dvec tgtR t
      = m2mSpecValue srcDim pSrc dim C srcR dvec tgtR t := by
  unfold m2mKernel m2mSpecValue
  have step1 : ((belowList t).map (fun s =>
      scatterValue (fullIds srcDim pSrc) C srcR tgtR s * specWeight dim dvec tgtR t s)).sum
      = ((belowList t).map (fun s =>
        if s ∈ fullIds srcDim pSrc then
          C.getD (idxIn (fullIds srcDim pSrc) s) default * (srcR / tgtR) ^ s.sum
            * specWeight dim dvec tgtR t s
        else 0)).sum := by
    apply listSum_congr
    intro s _
    unfold scatterValue
    by_cases hmem : s ∈ fullIds srcDim pSrc
    · rw [if_pos hmem, if_pos hmem]
    · rw [if_neg hmem, if_neg hmem, zero_mul]
  refine step1.trans ?_
  refine (listSum_exchange (nodup_belowList t) (nodup_fullIds srcDim pSrc)
      (fun s => C.getD (idxIn (fullIds srcDim pSrc) s) default * (srcR / tgtR) ^ s.sum
        * specWeight dim dvec tgtR t s)).trans ?_
  refine Eq.trans ?_ (zipSum_eq (fullIds srcDim pSrc) C (nodup_fullIds srcDim pSrc) hC
      (fun s c => if miLe s t then
        c * specWeight dim dvec tgtR t s * (srcR / tgtR) ^ s.sum else 0)).symm
  apply listSum_congr
  intro s _
  by_cases hle : miLe s t
  · rw [if_pos (mem_belowList.mpr hle), if_pos hle]
    ring
  · rw [if_neg (fun hc => hle (mem_belowList.mp hc)), if_neg hle]

theorem mi_factorial_pos (s : Mi) : 0 < mi_factorial s := by
  unfold mi_factorial
  induction s with
  | nil => simp
  | cons x xs ih =>
    rw [List.map_cons, List.prod_cons]
    exact Nat.mul_pos (Nat.factorial_pos x) ih

theorem mi_factorial_cast_eq_range (s : Mi) :
    (mi_factorial s : ℚ)
      = ((List.range s.length).map (fun k => (Nat.factorial (s.getD k 0) : ℚ))).prod := by
  unfold mi_factorial
  rw [Nat.cast_list_prod, List.map_map, miProd_map_eq_range s (Nat.cast ∘ Nat.factorial)]
  apply congrArg
  apply List.map_congr_left
  intro k _
  simp [Function.comp]

/-- The per-axis algebra that makes the reference path agree with the spec
formula: `Π_k binom(t_k,s_k)·x_k^(t_k−s_k) · s!/t! = Π_k x_k^(t_k−s_k)/(t_k−s_k)!`. -/
theorem weight_identity (dim : ℕ) (t s : Mi) (hlt : t.length = dim)
    (hls : s.length = dim) (hle : miLe s t) (dvec : List ℚ) (tgtR : ℚ) :
    ((List.range dim).map (fun i =>
        (Nat.choose (t.getD i 0) (s.getD i 0) : ℚ) *
          (dvec.getD i 0 / tgtR) ^ (t.getD i 0 - s.getD i 0))).prod
      * (mi_factorial s : ℚ)
      = specWeight dim dvec tgtR t s * (mi_factorial t : ℚ) := by
  rw [mi_factorial_cast_eq_range, mi_factorial_cast_eq_range, hls, hlt]
  unfold specWeight
  rw [← List.prod_map_mul, ← List.prod_map_mul]
  apply congrArg
  apply List.map_congr_left
  intro i _
  have hk : s.getD i 0 ≤ t.getD i 0 := miLe_getD hle i
  have hfac : (Nat.factorial (t.getD i 0 - s.getD i 0) : ℚ) ≠ 0 :=
    Nat.cast_ne_zero.mpr (Nat.factorial_ne_zero _)
  have hch : (Nat.choose (t.getD i 0) (s.getD i 0) : ℚ)
      * (Nat.factorial (s.getD i 0) : ℚ) * (Nat.factorial (t.getD i 0 - s.getD i 0) : ℚ)
      = (Nat.factorial (t.getD i 0) : ℚ) := by
    exact_mod_cast Nat.choose_mul_factorial_mul_factorial hk
  rw [← hch, div_mul_eq_mul_div, mul_div_assoc, mul_div_cancel_right₀ _ hfac]
  ring

theorem zipWith_mut_getD (ids : List Mi) (C : List ℚ) (i : ℕ)
    (hi : i < ids.length) (hl : C.length = ids.length) :
    ((List.zipWith (fun mi c => c * (mi_factorial mi : ℚ)) ids C)
        ++ C.drop ids.length).getD i default
      = C.getD i default * (mi_factorial (ids.getD i []) : ℚ) := by
  induction ids generalizing C i with
  | nil => simp at hi
  | cons mi0 ids ih =>
    cases C with
    | nil => simp at hl
    | cons c0 C =>
      cases i with
      | zero => simp
      | succ i =>
        simp only [List.zipWith_cons_cons, List.drop_succ_cons, List.cons_append,
          List.getD_cons_succ]
        exact ih C i (by simpa using hi) (by simpa using hl)

theorem translateFromSlow_fst (srcDim pSrc dim pTgt : ℕ) (C : List ℚ)
    (hC : C.length = (fullIds srcDim pSrc).length)
    (srcR tgtR : ℚ) (dvec : List ℚ) :
    (translateFromSlow srcDim pSrc dim pTgt C srcR dvec tgtR).1
      = (fullIds dim pTgt).map
          (m2mKernel (fullIds srcDim pSrc) C srcR dim dvec tgtR) := by
  unfold translateFromSlow
  apply List.map_congr_left
  intro t ht
  obtain ⟨htlen, _⟩ := mem_fullIds.mp ht
  have hfacne : ((mi_factorial t : ℚ)) ≠ 0 :=
    Nat.cast_ne_zero.mpr (Nat.pos_iff_ne_zero.mp (mi_factorial_pos t))
  rw [div_eq_iff hfacne]
  unfold m2mKernel
  rw [← List.sum_map_mul_right]
  apply listSum_congr
  intro s hs
  have hle : miLe s t := mem_belowList.mp hs
  have hslen : s.length = dim := by rw [miLe_length hle, htlen]
  by_cases hmem : s ∈ fullIds srcDim pSrc
  · have hidx : idxIn (fullIds srcDim pSrc) s < (fullIds srcDim pSrc).length :=
      idxIn_lt_length hmem
    have hgc : getCoeff (fullIds srcDim pSrc)
        (List.zipWith (fun mi c => c * (mi_factorial mi : ℚ)) (fullIds srcDim pSrc) C
          ++ C.drop (fullIds srcDim pSrc).length) s
        = some (C.getD (idxIn (fullIds srcDim pSrc) s) default * (mi_factorial s : ℚ)) := by
      unfold getCoeff
      rw [if_pos hmem, zipWith_mut_getD _ _ _ hidx hC, getD_idxIn hmem]
    rw [hgc]
    have hsv : scatterValue (fullIds srcDim pSrc) C srcR tgtR s
        = C.getD (idxIn (fullIds srcDim pSrc) s) default * (srcR / tgtR) ^ s.sum := by
      unfold scatterValue
      rw [if_pos hmem]
    rw [hsv]
    have hw := weight_identity dim t s htlen hslen hle dvec tgtR
    calc C.getD (idxIn (fullIds srcDim pSrc) s) default * (mi_factorial s : ℚ)
          * ((List.range dim).map (fun i =>
              (Nat.choose (t.getD i 0) (s.getD i 0) : ℚ) *
                (dvec.getD i 0 / tgtR) ^ (t.getD i 0 - s.getD i 0))).prod
          * (srcR / tgtR) ^ s.sum
        = C.getD (idxIn (fullIds srcDim pSrc) s) default * (srcR / tgtR) ^ s.sum
            * (((List.range dim).map (fun i =>
              (Nat.choose (t.getD i 0) (s.getD i 0) : ℚ) *
                (dvec.getD i 0 / tgtR) ^ (t.getD i 0 - s.getD i 0))).prod
              * (mi_factorial s : ℚ)) := by ring
      _ = C.getD (idxIn (fullIds srcDim pSrc) s) default * (srcR / tgtR) ^ s.sum
            * (specWeight dim dvec tgtR t s * (mi_factorial t : ℚ)) := by rw [hw]
      _ = C.getD (idxIn (fullIds srcDim pSrc) s) default * (srcR / tgtR) ^ s.sum
            * specWeight dim dvec tgtR t s * (mi_factorial t : ℚ) := by ring
  · have hgc : getCoeff (fullIds srcDim pSrc)
        (List.zipWith (fun mi c => c * (mi_factorial mi : ℚ)) (fullIds srcDim pSrc) C
          ++ C.drop (fullIds srcDim pSrc).length) s = none := by
      unfold getCoeff
      rw [if_neg hmem]
    rw [hgc]
    have hsv : scatterValue (fullIds srcDim pSrc) C srcR tgtR s = 0 := by
      unfold scatterValue
      rw [if_neg hmem]
    rw [hsv, zero_mul, zero_mul]

end KernelForm

section ClaimC1C2

/-- C1: For every Cartesian Taylor M2M translation (source and target
expansions of the same kind and dimension), `translate_from` returns, for
every target multi-index `t`, the value
`T[t] = Σ_{s ≤ t, s ∈ stored(src)} C[s] · Π_k (dvec_k/tgt_rscale)^(t_k−s_k)/(t_k−s_k)! · (src_rscale/tgt_rscale)^{|s|}`,
with the full result reprojected to the target's stored representation
(the identity for the plain Volume Taylor family); unreachable target
entries (some `t_k − s_k` negative) contribute zero, which the formula
reflects by summing only over `s ≤ t`. -/
theorem m2m_translate_from_matches_spec_formula (dim pSrc pTgt : ℕ)
    (hdim : 0 < dim) (C : List ℚ) (hC : C.length = (fullIds dim pSrc).length)
    (srcR tgtR : ℚ) (dvec : List ℚ) (hdv : dvec.length = dim) :
    translateFromFast dim pSrc dim pTgt C srcR dvec tgtR
      = (fullIds dim pTgt).map (m2mSpecValue dim pSrc dim C srcR dvec tgtR) := by
  rw [translateFromFast_eq_kernel dim pSrc dim pTgt hdim C srcR tgtR dvec hdv]
  apply List.map_congr_left
  intro t _
  exact kernel_eq_specValue dim pSrc dim C hC srcR tgtR dvec t

/-- Witness for C1 at a concrete input (2D, source order 1, target order 2). -/
theorem m2m_translate_from_matches_spec_formula_witness :
    translateFromFast 2 1 2 2 [1, 2, 3] 2 [5, 7] 3
      = (fullIds 2 2).map (m2mSpecValue 2 1 2 [1, 2, 3] 2 [5, 7] 3) :=
  m2m_translate_from_matches_spec_formula 2 1 2 (by decide) [1, 2, 3] (by rfl)
    2 3 [5, 7] (by rfl)

/-- C2: For every Cartesian Taylor M2M translation and every source
coefficient vector, the fast axis-sweep algorithm (`_fast_version=True`)
produces exactly the same stored target coefficients as the retained
brute-force reference path (`_fast_version=False`). -/
theorem m2m_fast_version_eq_reference (dim pSrc pTgt : ℕ)
    (hdim : 0 < dim) (C : List ℚ) (hC : C.length = (fullIds dim pSrc).length)
    (srcR tgtR : ℚ) (dvec : List ℚ) (hdv : dvec.length = dim) :
    translateFromFast dim pSrc dim pTgt C srcR dvec tgtR
      = (translateFromSlow dim pSrc dim pTgt C srcR dvec tgtR).1 := by
  rw [translateFromFast_eq_kernel dim pSrc dim pTgt hdim C srcR tgtR dvec hdv,
    translateFromSlow_fst dim pSrc dim pTgt C hC srcR tgtR dvec]

/-- Witness for C2 at a concrete input (3D, source order 2, target order 1). -/
theorem m2m_fast_version_eq_reference_witness :
    translateFromFast 3 2 3 1 [1, 2, 3, 4, 5, 6, 7, 8, 9, 10] 2 [5, 7, 11] 3
      = (translateFromSlow 3 2 3 1 [1, 2, 3, 4, 5, 6, 7, 8, 9, 10] 2 [5, 7, 11] 3).1 :=
  m2m_fast_version_eq_reference 3 2 1 (by decide)
    [1, 2, 3, 4, 5, 6, 7, 8, 9, 10] (by rfl) 2 3 [5, 7, 11] (by rfl)

end ClaimC1C2

section RoundTripHelpers

/-- An internal restatement of the C1 result, shared by later proofs. -/
theorem translateFromFast_eq_specValue (dim pSrc pTgt : ℕ)
    (hdim : 0 < dim) (C : List ℚ) (hC : C.length = (fullIds dim pSrc).length)
    (srcR tgtR : ℚ) (dvec : List ℚ) (hdv : dvec.length = dim) :
    translateFromFast dim pSrc dim pTgt C srcR dvec tgtR
      = (fullIds dim pTgt).map (m2mSpecValue dim pSrc dim C srcR dvec tgtR) := by
  rw [translateFromFast_eq_kernel dim pSrc dim pTgt hdim C srcR tgtR dvec hdv]
  apply List.map_congr_left
  intro t _
  exact kernel_eq_specValue dim pSrc dim C hC srcR tgtR dvec t

theorem zipMapSum {M : Type} [AddCommMonoid M] (ids : List Mi) (f : Mi → ℚ)
    (G : Mi → ℚ → M) :
    ((ids.zip (ids.map f)).map (fun p => G p.1 p.2)).sum
      = (ids.map (fun t => G t (f t))).sum := by
  induction ids with
  | nil => simp
  | cons t ids ih => simp [ih]

theorem idxIn_cons_ne {l : List Mi} {y x : Mi} (h : y ≠ x) :
    idxIn (y :: l) x = idxIn l x + 1 := by
  have hstep : idxIn (y :: l) x = if y = x then 0 else idxIn l x + 1 := rfl
  rw [hstep, if_neg h]

theorem map_lookup_eq_self (ids : List Mi) (C : List ℚ)
    (hn : ids.Nodup) (hl : C.length = ids.length) :
    ids.map (fun u => C.getD (idxIn ids u) default) = C := by
  induction ids generalizing C with
  | nil => exact (List.length_eq_zero.mp hl).symm
  | cons y ids ih =>
    cases C with
    | nil => simp at hl
    | cons c0 C =>
      simp only [List.map_cons]
      unfold idxIn
      rw [if_pos rfl, List.getD_cons_zero]
      congr 1
      have : ids.map (fun u =>
          (c0 :: C).getD (if y = u then 0 else idxIn ids u + 1) default)
          = ids.map (fun u => C.getD (idxIn ids u) default) := by
        apply List.map_congr_left
        intro u hu
        have hne : y ≠ u := fun hc => (List.nodup_cons.mp hn).1 (hc ▸ hu)
        rw [if_neg hne, List.getD_cons_succ]
      rw [this, ih C (List.Nodup.of_cons hn) (by simpa using hl)]

theorem indicator_prod_le (dim : ℕ) (s t : Mi) (hs : s.length = dim)
    (ht : t.length = dim) :
    (if miLe s t then (1 : ℚ) else 0)
      = ((List.range dim).map
          (fun k => if s.getD k 0 ≤ t.getD k 0 then (1 : ℚ) else 0)).prod := by
  by_cases hle : miLe s t
  · rw [if_pos hle]
    symm
    apply List.prod_eq_one
    intro x hx
    simp only [List.mem_map] at hx
    obtain ⟨k, _, rfl⟩ := hx
    rw [if_pos (miLe_getD hle k)]
  · rw [if_neg hle]
    symm
    apply List.prod_eq_zero
    have : ∃ k, ¬ s.getD k 0 ≤ t.getD k 0 := by
      by_contra hc
      push_neg at hc
      exact hle (miLe_iff_getD.mpr ⟨by omega, hc⟩)
    obtain ⟨k, hk⟩ := this
    have hklt : k < dim := by
      by_contra hc
      rw [List.getD_eq_default _ _ (by omega), List.getD_eq_default _ _ (by omega)] at hk
      omega
    simp only [List.mem_map]
    exact ⟨k, List.mem_range.mpr hklt, by rw [if_neg hk]⟩

theorem indicator_prod_eq (dim : ℕ) (s u : Mi) (hs : s.length = dim)
    (hu : u.length = dim) :
    (if s = u then (1 : ℚ) else 0)
      = ((List.range dim).map
          (fun k => if s.getD k 0 = u.getD k 0 then (1 : ℚ) else 0)).prod := by
  by_cases heq : s = u
  · rw [if_pos heq, heq]
    symm
    apply List.prod_eq_one
    intro x hx
    simp only [List.mem_map] at hx
    obtain ⟨k, _, rfl⟩ := hx
    simp
  · rw [if_neg heq]
    symm
    apply List.prod_eq_zero
    have : ∃ k, s.getD k 0 ≠ u.getD k 0 := by
      by_contra hc
      push_neg at hc
      exact heq (mi_ext (by omega) hc)
    obtain ⟨k, hk⟩ := this
    have hklt : k < dim := by
      by_contra hc
      rw [List.getD_eq_default _ _ (by omega), List.getD_eq_default _ _ (by omega)] at hk
      omega
    simp only [List.mem_map]
    exact ⟨k, List.mem_range.mpr hklt, by rw [if_neg hk]⟩

theorem pow_listSum (x : ℚ) (l : List ℕ) :
    x ^ l.sum = (l.map (fun a => x ^ a)).prod := by
  induction l with
  | nil => simp
  | cons a l ih => rw [List.sum_cons, pow_add, List.map_cons, List.prod_cons, ih]

theorem pow_sum_range (x : ℚ) (t : Mi) (dim : ℕ) (ht : t.length = dim) :
    x ^ t.sum = ((List.range dim).map (fun k => x ^ t.getD k 0)).prod := by
  rw [pow_listSum, miProd_map_eq_range t (fun a => x ^ a), ht]

theorem getD_map_add_one {u : Mi} {k : ℕ} (hk : k < u.length) :
    (u.map (· + 1)).getD k 0 = u.getD k 0 + 1 := by
  induction u generalizing k with
  | nil => simp at hk
  | cons x xs ih =>
    cases k with
    | zero => simp
    | succ k => simpa using ih (by simpa using hk)

theorem sum_gnitb_prod (ns : List ℕ) (F : ℕ → ℕ → ℚ) :
    ((gnitb ns).map (fun v =>
      ((List.range ns.length).map (fun k => F k (v.getD k 0))).prod)).sum
    = ((List.range ns.length).map (fun k =>
        ((List.range (ns.getD k 0)).map (F k)).sum)).prod := by
  induction ns generalizing F with
  | nil => simp [gnitb]
  | cons n ns ih =>
    have hcons : gnitb (n :: ns)
        = (List.range n).flatMap (fun i => (gnitb ns).map (fun t => i :: t)) := rfl
    rw [hcons, listSum_flatMap]
    have hsplit : ∀ i : ℕ, (((gnitb ns).map (fun t => i :: t)).map (fun v =>
        ((List.range (n :: ns).length).map (fun k => F k (v.getD k 0))).prod)).sum
        = F 0 i * ((gnitb ns).map (fun v =>
            ((List.range ns.length).map (fun k => F (k + 1) (v.getD k 0))).prod)).sum := by
      intro i
      rw [List.map_map, ← List.sum_map_mul_left]
      apply listSum_congr
      intro v _
      simp only [Function.comp]
      rw [List.length_cons, List.range_succ_eq_map, List.map_cons, List.prod_cons,
        List.getD_cons_zero, List.map_map]
      congr 1
    rw [listSum_congr (fun i _ => hsplit i), List.sum_map_mul_right,
      ih (fun k => F (k + 1))]
    rw [List.length_cons, List.range_succ_eq_map, List.map_cons, List.prod_cons,
      List.getD_cons_zero, List.map_map]
    congr 1

end RoundTripHelpers

section RoundTripKernel

theorem getD_map_neg (l : List ℚ) (k : ℕ) :
    (l.map Neg.neg).getD k 0 = -(l.getD k 0) := by
  induction l generalizing k with
  | nil => simp
  | cons x xs ih =>
    cases k with
    | zero => simp
    | succ k => simpa using ih k

/-- `Σ_{j≤m} x^j/j! · y^(m−j)/(m−j)! = (x+y)^m/m!`. -/
theorem binomial_factorial_sum (x y : ℚ) (m : ℕ) :
    ((List.range (m + 1)).map (fun j =>
      x ^ j / (Nat.factorial j : ℚ) * (y ^ (m - j) / (Nat.factorial (m - j) : ℚ)))).sum
      = (x + y) ^ m / (Nat.factorial m : ℚ) := by
  rw [listSum_range_eq, add_pow, Finset.sum_div]
  apply Finset.sum_congr rfl
  intro j hj
  have hjm : j ≤ m := Nat.lt_succ_iff.mp (Finset.mem_range.mp hj)
  have hc : (Nat.choose m j : ℚ)
      = (Nat.factorial m : ℚ) / ((Nat.factorial j : ℚ) * (Nat.factorial (m - j) : ℚ)) :=
    Nat.cast_choose ℚ hjm
  have h1 : (Nat.factorial j : ℚ) ≠ 0 := Nat.cast_ne_zero.mpr (Nat.factorial_ne_zero _)
  have h2 : (Nat.factorial (m - j) : ℚ) ≠ 0 := Nat.cast_ne_zero.mpr (Nat.factorial_ne_zero _)
  have h3 : (Nat.factorial m : ℚ) ≠ 0 := Nat.cast_ne_zero.mpr (Nat.factorial_ne_zero _)
  rw [hc]
  field_simp
  ring

/-- The factor contributed by one axis to the doubly-translated value. -/
def axisFactor (d r1 r2 : ℚ) (a b x : ℕ) : ℚ :=
  (if a ≤ x then (1 : ℚ) else 0)
    * ((d / r2) ^ (x - a) / (Nat.factorial (x - a) : ℚ)
      * ((-d / r1) ^ (b - x) / (Nat.factorial (b - x) : ℚ)
        * (r2 / r1) ^ x))

/-- Summing one axis of the round trip telescopes to a Kronecker delta. -/
theorem axisFactor_sum (d r1 r2 : ℚ) (h1 : r1 ≠ 0) (h2 : r2 ≠ 0) (a b : ℕ) :
    ((List.range (b + 1)).map (axisFactor d r1 r2 a b)).sum
      = (r2 / r1) ^ a * (if a = b then 1 else 0) := by
  by_cases hab : a ≤ b
  · rw [listSum_range_eq]
    have hsplit : ∀ x ∈ Finset.range (b + 1),
        axisFactor d r1 r2 a b x = if a ≤ x then
          (d / r2) ^ (x - a) / (Nat.factorial (x - a) : ℚ)
            * ((-d / r1) ^ (b - x) / (Nat.factorial (b - x) : ℚ)
              * (r2 / r1) ^ x) else 0 := by
      intro x _
      unfold axisFactor
      by_cases hax : a ≤ x
      · rw [if_pos hax, if_pos hax, one_mul]
      · rw [if_neg hax, if_neg hax, zero_mul]
    rw [Finset.sum_congr rfl hsplit, ← Finset.sum_filter]
    have hfil : (Finset.range (b + 1)).filter (fun x => a ≤ x) = Finset.Ico a (b + 1) := by
      ext x
      simp only [Finset.mem_filter, Finset.mem_range, Finset.mem_Ico]
      omega
    rw [hfil, Finset.sum_Ico_eq_sum_range]
    have hm : b + 1 - a = (b - a) + 1 := by omega
    rw [hm]
    have hG : ∀ j ∈ Finset.range ((b - a) + 1),
        (d / r2) ^ (a + j - a) / (Nat.factorial (a + j - a) : ℚ)
          * ((-d / r1) ^ (b - (a + j)) / (Nat.factorial (b - (a + j)) : ℚ)
            * (r2 / r1) ^ (a + j))
        = (r2 / r1) ^ a
            * ((d / r1) ^ j / (Nat.factorial j : ℚ)
              * ((-d / r1) ^ ((b - a) - j) / (Nat.factorial ((b - a) - j) : ℚ))) := by
      intro j hj
      have e1 : a + j - a = j := by omega
      have e2 : b - (a + j) = (b - a) - j := by omega
      rw [e1, e2, pow_add]
      have e3 : (d / r2) ^ j * (r2 / r1) ^ j = (d / r1) ^ j := by
        rw [← mul_pow]
        congr 1
        rw [div_mul_div_comm, mul_comm d r2, mul_div_mul_left d r1 h2]
      rw [← e3]
      ring
    rw [Finset.sum_congr rfl hG, ← Finset.mul_sum, ← listSum_range_eq,
      binomial_factorial_sum]
    have hz : d / r1 + -d / r1 = 0 := by
      rw [neg_div]
      ring
    rw [hz, zero_pow_eq]
    by_cases hba : b - a = 0
    · have hab2 : a = b := by omega
      rw [if_pos hba, if_pos hab2, hba]
      norm_num
    · have hab2 : ¬ a = b := by omega
      rw [if_neg hba, if_neg hab2, zero_div, mul_zero]
  · have hzero : ∀ x ∈ List.range (b + 1), axisFactor d r1 r2 a b x = 0 := by
      intro x hx
      have : ¬ a ≤ x := by
        have := List.mem_range.mp hx
        omega
      unfold axisFactor
      rw [if_neg this, zero_mul]
    rw [List.sum_eq_zero (by
      intro y hy
      simp only [List.mem_map] at hy
      obtain ⟨x, hx, rfl⟩ := hy
      exact hzero x hx)]
    rw [if_neg (by omega), mul_zero]

/-- The inner double-translation kernel telescopes to a Kronecker delta. -/
theorem roundtrip_inner (dim : ℕ) (dvec : List ℚ) (hdv : dvec.length = dim)
    (r1 r2 : ℚ) (h1 : r1 ≠ 0) (h2 : r2 ≠ 0) (s u : Mi)
    (hs : s.length = dim) (hu : u.length = dim) :
    ((belowList u).map (fun t =>
      (if miLe s t then (1 : ℚ) else 0)
        * (specWeight dim dvec r2 t s
          * (specWeight dim (dvec.map Neg.neg) r1 u t
            * (r2 / r1) ^ t.sum)))).sum
      = (r2 / r1) ^ s.sum * (if s = u then 1 else 0) := by
  have hterm : ∀ t ∈ belowList u,
      (if miLe s t then (1 : ℚ) else 0)
        * (specWeight dim dvec r2 t s
          * (specWeight dim (dvec.map Neg.neg) r1 u t
            * (r2 / r1) ^ t.sum))
      = ((List.range ((u.map (· + 1)).length)).map (fun k =>
          axisFactor (dvec.getD k 0) r1 r2 (s.getD k 0) (u.getD k 0)
            (t.getD k 0))).prod := by
    intro t ht
    have htlen : t.length = dim := by
      rw [miLe_length (mem_belowList.mp ht), hu]
    have hw2 : specWeight dim (dvec.map Neg.neg) r1 u t
        = ((List.range dim).map (fun k =>
            (-(dvec.getD k 0) / r1) ^ (u.getD k 0 - t.getD k 0) /
              (Nat.factorial (u.getD k 0 - t.getD k 0) : ℚ))).prod := by
      unfold specWeight
      apply congrArg
      apply List.map_congr_left
      intro k _
      rw [getD_map_neg]
    rw [indicator_prod_le dim s t hs htlen, hw2,
      pow_sum_range (r2 / r1) t dim htlen]
    unfold specWeight
    rw [← List.prod_map_mul, ← List.prod_map_mul, ← List.prod_map_mul]
    have hlen2 : (u.map (· + 1)).length = dim := by
      rw [List.length_map, hu]
    rw [hlen2]
    apply congrArg
    apply List.map_congr_left
    intro k _
    unfold axisFactor
    rfl
  rw [listSum_congr hterm]
  have hb : belowList u = gnitb (u.map (· + 1)) := rfl
  rw [hb, sum_gnitb_prod (u.map (· + 1))
    (fun k x => axisFactor (dvec.getD k 0) r1 r2 (s.getD k 0) (u.getD k 0) x)]
  have hlen2 : (u.map (· + 1)).length = dim := by
    rw [List.length_map, hu]
  rw [hlen2]
  have hfac : ∀ k ∈ List.range dim,
      ((List.range ((u.map (· + 1)).getD k 0)).map
        (fun x => axisFactor (dvec.getD k 0) r1 r2 (s.getD k 0) (u.getD k 0) x)).sum
      = (r2 / r1) ^ s.getD k 0 * (if s.getD k 0 = u.getD k 0 then 1 else 0) := by
    intro k hk
    have hklt : k < u.length := by
      rw [hu]
      exact List.mem_range.mp hk
    rw [getD_map_add_one hklt]
    exact axisFactor_sum (dvec.getD k 0) r1 r2 h1 h2 (s.getD k 0) (u.getD k 0)
  calc ((List.range dim).map (fun k =>
        ((List.range ((u.map (· + 1)).getD k 0)).map
          (fun x => axisFactor (dvec.getD k 0) r1 r2 (s.getD k 0) (u.getD k 0) x)).sum)).prod
      = ((List.range dim).map (fun k =>
          (r2 / r1) ^ s.getD k 0 * (if s.getD k 0 = u.getD k 0 then 1 else 0))).prod := by
        apply congrArg
        exact List.map_congr_left hfac
    _ = (r2 / r1) ^ s.sum * (if s = u then 1 else 0) := by
        rw [List.prod_map_mul, ← pow_sum_range (r2 / r1) s dim hs,
          ← indicator_prod_eq dim s u hs hu]

end RoundTripKernel

section ClaimC5

/-- C5: For every Cartesian Taylor M2M pair with target order ≥ source
order, translating the stored coefficients by `dvec` and then translating
the result back by `-dvec` (swapping the rscales accordingly) reproduces
the original stored coefficient vector exactly. -/
theorem m2m_round_trip_exact (dim pSrc pTgt : ℕ) (hdim : 0 < dim)
    (hord : pSrc ≤ pTgt) (C : List ℚ) (hC : C.length = (fullIds dim pSrc).length)
    (dvec : List ℚ) (hdv : dvec.length = dim)
    (r1 r2 : ℚ) (h1 : r1 ≠ 0) (h2 : r2 ≠ 0) :
    translateFromFast dim pTgt dim pSrc
        (translateFromFast dim pSrc dim pTgt C r1 dvec r2) r2 (dvec.map Neg.neg) r1
      = C := by
  have hB := translateFromFast_eq_specValue dim pSrc pTgt hdim C hC r1 r2 dvec hdv
  have hBlen : (translateFromFast dim pSrc dim pTgt C r1 dvec r2).length
      = (fullIds dim pTgt).length := by rw [hB, List.length_map]
  rw [translateFromFast_eq_specValue dim pTgt pSrc hdim _ hBlen r2 r1
    (dvec.map Neg.neg) (by rw [List.length_map, hdv])]
  have hpoint : ∀ u ∈ fullIds dim pSrc,
      m2mSpecValue dim pTgt dim (translateFromFast dim pSrc dim pTgt C r1 dvec r2)
          r2 (dvec.map Neg.neg) r1 u
        = C.getD (idxIn (fullIds dim pSrc) u) default := by
    intro u hu
    obtain ⟨hulen, husum⟩ := mem_fullIds.mp hu
    have e0 : m2mSpecValue dim pTgt dim
        (translateFromFast dim pSrc dim pTgt C r1 dvec r2) r2 (dvec.map Neg.neg) r1 u
        = (((fullIds dim pTgt).zip
            (translateFromFast dim pSrc dim pTgt C r1 dvec r2)).map (fun p =>
          if miLe p.1 u then
            p.2 * specWeight dim (dvec.map Neg.neg) r1 u p.1 * (r2 / r1) ^ p.1.sum
          else 0)).sum := rfl
    rw [e0, hB]
    refine (zipMapSum (fullIds dim pTgt) (m2mSpecValue dim pSrc dim C r1 dvec r2)
      (fun a b => if miLe a u then
        b * specWeight dim (dvec.map Neg.neg) r1 u a * (r2 / r1) ^ a.sum
      else 0)).trans ?_
    have hx1 : ∀ t ∈ fullIds dim pTgt,
        (if miLe t u then m2mSpecValue dim pSrc dim C r1 dvec r2 t
            * specWeight dim (dvec.map Neg.neg) r1 u t * (r2 / r1) ^ t.sum else 0)
        = (if t ∈ belowList u then m2mSpecValue dim pSrc dim C r1 dvec r2 t
            * specWeight dim (dvec.map Neg.neg) r1 u t * (r2 / r1) ^ t.sum else 0) := by
      intro t _
      by_cases hle : miLe t u
      · rw [if_pos hle, if_pos (mem_belowList.mpr hle)]
      · rw [if_neg hle, if_neg (fun hc => hle (mem_belowList.mp hc))]
    refine (listSum_congr hx1).trans ?_
    refine (listSum_exchange (nodup_fullIds dim pTgt) (nodup_belowList u)
      (fun t => m2mSpecValue dim pSrc dim C r1 dvec r2 t
        * specWeight dim (dvec.map Neg.neg) r1 u t * (r2 / r1) ^ t.sum)).trans ?_
    have hx2 : ∀ t ∈ belowList u,
        (if t ∈ fullIds dim pTgt then m2mSpecValue dim pSrc dim C r1 dvec r2 t
            * specWeight dim (dvec.map Neg.neg) r1 u t * (r2 / r1) ^ t.sum else 0)
        = m2mSpecValue dim pSrc dim C r1 dvec r2 t
            * specWeight dim (dvec.map Neg.neg) r1 u t * (r2 / r1) ^ t.sum := by
      intro t ht
      have hle := mem_belowList.mp ht
      have : t ∈ fullIds dim pTgt := mem_fullIds.mpr
        ⟨by rw [miLe_length hle, hulen],
          le_trans (le_trans (miLe_sum_le hle) husum) hord⟩
      rw [if_pos this]
    refine (listSum_congr hx2).trans ?_
    have hx3 : ∀ t ∈ belowList u,
        m2mSpecValue dim pSrc dim C r1 dvec r2 t
          * specWeight dim (dvec.map Neg.neg) r1 u t * (r2 / r1) ^ t.sum
        = (((fullIds dim pSrc).zip C).map (fun p =>
            (if miLe p.1 t then
              p.2 * specWeight dim dvec r2 t p.1 * (r1 / r2) ^ p.1.sum else 0)
              * (specWeight dim (dvec.map Neg.neg) r1 u t * (r2 / r1) ^ t.sum))).sum := by
      intro t _
      unfold m2mSpecValue
      rw [mul_assoc, ← List.sum_map_mul_right]
    refine (listSum_congr hx3).trans ?_
    rw [listSum_comm]
    have hx4 : ∀ p ∈ (fullIds dim pSrc).zip C,
        ((belowList u).map (fun t =>
          (if miLe p.1 t then
            p.2 * specWeight dim dvec r2 t p.1 * (r1 / r2) ^ p.1.sum else 0)
            * (specWeight dim (dvec.map Neg.neg) r1 u t * (r2 / r1) ^ t.sum))).sum
        = if p.1 = u then p.2 else 0 := by
      intro p hp
      have hs : p.1.length = dim := (mem_fullIds.mp (List.of_mem_zip hp).1).1
      have hterm : ∀ t ∈ belowList u,
          (if miLe p.1 t then
            p.2 * specWeight dim dvec r2 t p.1 * (r1 / r2) ^ p.1.sum else 0)
            * (specWeight dim (dvec.map Neg.neg) r1 u t * (r2 / r1) ^ t.sum)
          = (p.2 * (r1 / r2) ^ p.1.sum)
              * ((if miLe p.1 t then (1 : ℚ) else 0)
                * (specWeight dim dvec r2 t p.1
                  * (specWeight dim (dvec.map Neg.neg) r1 u t * (r2 / r1) ^ t.sum))) := by
        intro t _
        by_cases hle : miLe p.1 t
        · rw [if_pos hle, if_pos hle]
          ring
        · rw [if_neg hle, if_neg hle]
          ring
      rw [listSum_congr hterm, List.sum_map_mul_left,
        roundtrip_inner dim dvec hdv r1 r2 h1 h2 p.1 u hs hulen]
      have hone : (r1 / r2) ^ p.1.sum * (r2 / r1) ^ p.1.sum = 1 := by
        rw [← mul_pow]
        have hq : r1 / r2 * (r2 / r1) = 1 := by
          field_simp
        rw [hq, one_pow]
      by_cases heq : p.1 = u
      · rw [if_pos heq, if_pos heq]
        calc p.2 * (r1 / r2) ^ p.1.sum * ((r2 / r1) ^ p.1.sum * 1)
            = p.2 * ((r1 / r2) ^ p.1.sum * (r2 / r1) ^ p.1.sum) := by ring
          _ = p.2 := by rw [hone, mul_one]
      · rw [if_neg heq, if_neg heq]
        ring
    refine (listSum_congr hx4).trans ?_
    exact zipSum_pick (fullIds dim pSrc) C (nodup_fullIds dim pSrc) hC hu
  rw [List.map_congr_left hpoint]
  exact map_lookup_eq_self (fullIds dim pSrc) C (nodup_fullIds dim pSrc) hC

/-- Witness for C5 at a concrete input (2D, order 1 up to order 2 and back). -/
theorem m2m_round_trip_exact_witness :
    translateFromFast 2 2 2 1
        (translateFromFast 2 1 2 2 [1, 2, 3] 2 [5, 7] 3) 3 ([5, 7].map Neg.neg) 2
      = [1, 2, 3] :=
  m2m_round_trip_exact 2 1 2 (by decide) (by decide) [1, 2, 3] (by rfl)
    [5, 7] (by rfl) 2 3 (by norm_num) (by norm_num)

end ClaimC5

/-! ### The Cartesian Taylor M2L engine (`m2l.py`, `VolumeTaylorM2LTranslation` and variants)

Instantiated for the plain Volume Taylor family (stored = full identifiers,
identity projections).  The kernel derivative taker
(`kernel.get_derivative_taker`, an external collaborator) is an opaque
function `deriv : Mi → F` over a field of symbolic values `F`. -/

/-- `max_mi` (m2l.py lines 209–214): the componentwise maximum of the
source identifiers plus the componentwise maximum of the target
identifiers. -/
def maxMi (dim pSrc pTgt : ℕ) : List ℕ :=
  (List.range dim).map (fun i =>
    ((fullIds dim pSrc).map (fun mi => mi.getD i 0)).foldr max 0
      + ((fullIds dim pTgt).map (fun mi => mi.getD i 0)).foldr max 0)

/-- `circulant_matrix_mis` (line 223): `gnitb([m + 1 for m in max_mi])`. -/
def circulantMis (dim pSrc pTgt : ℕ) : List Mi :=
  gnitb ((maxMi dim pSrc pTgt).map (· + 1))

/-- The duplicate-dropping accumulation `if x not in acc: acc.add(x)`
(the Python code accumulates into a `set`, whose iteration order is
unspecified; nothing downstream depends on the order, and this model keeps
first-occurrence order). -/
def dedupAppend (l : List Mi) : List Mi :=
  l.foldl (fun acc x => if x ∈ acc then acc else acc ++ [x]) []

/-- `needed_vector_terms` (lines 228–235): the distinct sums
`add_mi(src_deriv, tgt_deriv)` over all pairs of coefficient identifiers,
target identifier in the outer loop. -/
def neededVectorTerms (dim pSrc pTgt : ℕ) : List Mi :=
  dedupAppend ((fullIds dim pTgt).flatMap (fun tgt_deriv =>
    (fullIds dim pSrc).map (fun src_deriv => add_mi src_deriv tgt_deriv)))

/-- The full identifiers of
`src_expansion.expansion_terms_wrangler.copy(order=pSrc+pTgt, max_mi=max_mi)`
(lines 271–276).  Modelled from the spec (§4.1 `with_order`; the wrangler
is not under `src/`): for the plain Taylor family, the multi-indices of
degree ≤ pSrc+pTgt whose components are bounded by `max_mi`. -/
def srcplusderivIds (dim pSrc pTgt : ℕ) : List Mi :=
  (fullIds dim (pSrc + pTgt)).filter
    (fun mi => decide (miLe mi (maxMi dim pSrc pTgt)))

section M2LField

variable {F : Type} [Field F]

/-- `sumpy.tools.matvec_toeplitz_upper_triangular`.
Modelled from the spec (§4.3, the upper-triangular Toeplitz matrix-vector
product; `sumpy/tools.py` is not under `src/`) and consistent with the
inlined loopy kernel in `m2l.py` lines 386–390:
`output[row] = Σ_{col ≥ row} first_row[col − row] · vector[col]`. -/
def matvec_toeplitz_upper_triangular (first_row vector : List F) : List F :=
  (List.range first_row.length).map (fun row =>
    ((List.range' row (first_row.length - row)).map (fun col =>
      first_row.getD (col - row) 0 * vector.getD col 0)).sum)

/-- `VolumeTaylorM2LTranslation.translation_classes_dependent_data`
(lines 239–307) for the plain Taylor family (where
`get_full_kernel_derivatives_from_stored` is the identity, spec §4.1):
the kernel derivative of each needed term is written at its circulant
position; every other entry stays one of the zeros that make the
translation matrix circulant.  The inner dictionary lookup
`srcplusderiv_ident_to_index[term]` is modelled with a membership guard
(for the plain family every needed term is an identifier of the combined
wrangler, so the guard never fails). -/
def translationClassesDependentData (deriv : Mi → F) (dim pSrc pTgt : ℕ) :
    List F :=
  (neededVectorTerms dim pSrc pTgt).foldl
    (fun acc term => acc.set (idxIn (circulantMis dim pSrc pTgt) term)
      (if term ∈ srcplusderivIds dim pSrc pTgt then deriv term else 0))
    (List.replicate (circulantMis dim pSrc pTgt).length 0)

/-- `VolumeTaylorM2LTranslation.preprocess_multipole_exprs` (lines
309–325): scatter the stored source coefficients into the circulant index
space. -/
def vtPreprocess (dim pSrc pTgt : ℕ) (C : List F) : List F :=
  ((fullIds dim pSrc).zip C).foldl
    (fun acc p => acc.set (idxIn (circulantMis dim pSrc pTgt) p.1) p.2)
    (List.replicate (circulantMis dim pSrc pTgt).length 0)

/-- `VolumeTaylorM2LTranslation.postprocess_local_exprs` (lines 333–348):
keep the entries at the target identifiers, scaled by
`(tgt_rscale/src_rscale)^degree`. -/
def vtPostprocess (dim pSrc pTgt : ℕ) (m2l : List F) (srcR tgtR : F) : List F :=
  (fullIds dim pTgt).map (fun term =>
    m2l.getD (idxIn (circulantMis dim pSrc pTgt) term) 0 * (tgtR / srcR) ^ term.sum)

/-- `VolumeTaylorM2LTranslation.translate` (lines 151–172): the Direct
strategy; it preprocesses, multiplies by the upper-triangular Toeplitz
matrix of kernel derivatives, and postprocesses, all internally. -/
def vtDirectTranslate (deriv : Mi → F) (dim pSrc pTgt : ℕ)
    (C : List F) (srcR tgtR : F) : List F :=
  vtPostprocess dim pSrc pTgt
    (matvec_toeplitz_upper_triangular (vtPreprocess dim pSrc pTgt C)
      (translationClassesDependentData deriv dim pSrc pTgt))
    srcR tgtR

/-- `VolumeTaylorM2LWithPreprocessedMultipoles.translate` (lines 358–368):
only the Toeplitz matvec; pre/postprocessing are separate phases run by
the caller. -/
def vtPreprocessedTranslate (src_coeff_exprs data : List F) : List F :=
  matvec_toeplitz_upper_triangular src_coeff_exprs data

/-- The full Precomputed+Circulant pipeline: phase (a)
`translation_classes_dependent_data`, phase (b) `preprocess`, the per-pair
`translate`, then phase (c) `postprocess` (spec §4.3). -/
def vtPreprocessedPipeline (deriv : Mi → F) (dim pSrc pTgt : ℕ)
    (C : List F) (srcR tgtR : F) : List F :=
  vtPostprocess dim pSrc pTgt
    (vtPreprocessedTranslate (vtPreprocess dim pSrc pTgt C)
      (translationClassesDependentData deriv dim pSrc pTgt))
    srcR tgtR

/-- `sumpy.tools.fft`, forward direction.
Modelled from the spec (§4.3: the forward discrete transform over the
circulant's cyclic index space; `sumpy/tools.py` is not under `src/`):
the discrete Fourier transform with root of unity `ω`,
`fft(x)[j] = Σ_i x_i · ω^(i·j)`. -/
def fftM (ω : F) (x : List F) : List F :=
  (List.range x.length).map (fun j =>
    ((List.range x.length).map (fun i => x.getD i 0 * ω ^ (i * j))).sum)

/-- `sumpy.tools.fft` with `inverse=True`.
Modelled from the spec: the inverse transform,
`fft(x, inverse=True)[j] = invN · Σ_i x_i · (ω^(N−1))^(i·j)`, where
`ω^(N−1)` is the inverse root and `invN` the inverse of the length. -/
def ifftM (ω invN : F) (x : List F) : List F :=
  (List.range x.length).map (fun j =>
    invN * ((List.range x.length).map (fun i =>
      x.getD i 0 * (ω ^ (x.length - 1)) ^ (i * j))).sum)

/-- `VolumeTaylorM2LWithFFT` (lines 411–455): the data vector is reversed
and forward-transformed (lines 424–434); the preprocessed sources are
forward-transformed (lines 436–441); `translate` is the pointwise product
(lines 414–422); postprocessing inverse-transforms, keeps the first `n`
entries and reverses them (lines 443–455) before the inherited
extraction. -/
def vtFftPipeline (ω invN : F) (deriv : Mi → F) (dim pSrc pTgt : ℕ)
    (C : List F) (srcR tgtR : F) : List F :=
  vtPostprocess dim pSrc pTgt
    ((((ifftM ω invN
        (List.zipWith (· * ·)
          (fftM ω (translationClassesDependentData deriv dim pSrc pTgt).reverse)
          (fftM ω (vtPreprocess dim pSrc pTgt C)))).take
            (circulantMis dim pSrc pTgt).length)).reverse)
    srcR tgtR

end M2LField

section IndexInfrastructure

theorem idxIn_unique {l : List Mi} (hn : l.Nodup) {i : ℕ} {x : Mi}
    (hi : i < l.length) (hx : l.getD i [] = x) : idxIn l x = i := by
  induction l generalizing i with
  | nil => simp at hi
  | cons y ys ih =>
    cases i with
    | zero =>
      simp only [List.getD_cons_zero] at hx
      unfold idxIn
      rw [if_pos hx]
    | succ i =>
      simp only [List.getD_cons_succ] at hx
      have hmem : x ∈ ys := by
        rw [← hx, List.getD_eq_getElem _ _ (by simpa using hi)]
        exact List.getElem_mem _
      have hne : y ≠ x := fun hc => (List.nodup_cons.mp hn).1 (hc ▸ hmem)
      unfold idxIn
      rw [if_neg hne, ih (List.Nodup.of_cons hn) (by simpa using hi) hx]

theorem idxIn_inj {l : List Mi} (hn : l.Nodup) {u v : Mi}
    (hu : u ∈ l) (hv : v ∈ l) (h : idxIn l u = idxIn l v) : u = v := by
  have h1 := getD_idxIn hu
  have h2 := getD_idxIn hv
  rw [← h1, h, h2]

theorem length_gnitb (ns : List ℕ) : (gnitb ns).length = ns.prod := by
  induction ns with
  | nil => simp [gnitb]
  | cons n ns ih =>
    have hcons : gnitb (n :: ns)
        = (List.range n).flatMap (fun i => (gnitb ns).map (fun t => i :: t)) := rfl
    rw [hcons, List.length_flatMap]
    have : ∀ i : ℕ, ((gnitb ns).map (fun t => i :: t)).length = ns.prod := by
      intro i
      rw [List.length_map, ih]
    calc ((List.range n).map (fun i => ((gnitb ns).map (fun t => i :: t)).length)).sum
        = ((List.range n).map (fun _ => ns.prod)).sum := by
          apply listSum_congr
          intro i _
          rw [List.length_map, ih]
      _ = n * ns.prod := by
          have : ∀ (m : ℕ), ((List.range m).map (fun _ => ns.prod)).sum = m * ns.prod := by
            intro m
            induction m with
            | zero => simp
            | succ m ihm =>
              rw [List.range_succ, List.map_append, List.sum_append, ihm]
              simp
              ring
          exact this n
      _ = (n :: ns).prod := by rw [List.prod_cons]

theorem getD_append_left {α : Type} (d : α) (l₁ l₂ : List α) {n : ℕ}
    (h : n < l₁.length) : (l₁ ++ l₂).getD n d = l₁.getD n d := by
  induction l₁ generalizing n with
  | nil => simp at h
  | cons x xs ih =>
    cases n with
    | zero => simp
    | succ n => simpa using ih (by simpa using h)

theorem getD_append_right {α : Type} (d : α) (l₁ l₂ : List α) {n : ℕ}
    (h : l₁.length ≤ n) : (l₁ ++ l₂).getD n d = l₂.getD (n - l₁.length) d := by
  induction l₁ generalizing n with
  | nil => simp
  | cons x xs ih =>
    cases n with
    | zero => simp at h
    | succ n =>
      simp only [List.cons_append, List.getD_cons_succ, List.length_cons]
      rw [ih (by simpa using h)]
      congr 1
      omega

/-- Mixed-radix position of a tuple in the box enumerated by `gnitb`. -/
def boxIdx : List ℕ → Mi → ℕ
  | [], _ => 0
  | _ :: ns, [] => 0 * (gnitb ns).length
  | _ :: ns, x :: xs => x * (gnitb ns).length + boxIdx ns xs

theorem gnitb_getD_boxIdx {ns : List ℕ} {v : Mi}
    (h : List.Forall₂ (· < ·) v ns) :
    (gnitb ns).getD (boxIdx ns v) [] = v ∧ boxIdx ns v < (gnitb ns).length := by
  induction h with
  | nil => simp [gnitb, boxIdx]
  | @cons x n xs ns hxn hrest ih =>
    obtain ⟨ihget, ihlt⟩ := ih
    have hcons : gnitb (n :: ns)
        = (List.range n).flatMap (fun i => (gnitb ns).map (fun t => i :: t)) := rfl
    have hbox : boxIdx (n :: ns) (x :: xs) = x * (gnitb ns).length + boxIdx ns xs := rfl
    constructor
    · rw [hcons, hbox]
      have hblock : ∀ (is : List ℕ) (k r : ℕ), k < is.length →
          r < (gnitb ns).length →
          ((is.flatMap (fun i => (gnitb ns).map (fun t => i :: t))).getD
              (k * (gnitb ns).length + r) [])
            = (is.getD k 0) :: ((gnitb ns).getD r []) := by
        intro is
        induction is with
        | nil => intro k r hk _; simp at hk
        | cons i is ih2 =>
          intro k r hk hr
          rw [List.flatMap_cons]
          cases k with
          | zero =>
            rw [Nat.zero_mul, Nat.zero_add]
            rw [getD_append_left [] _ _ (by rwa [List.length_map])]
            simp only [List.getD_cons_zero]
            have hrlen : r < ((gnitb ns).map (fun t => i :: t)).length := by
              rwa [List.length_map]
            rw [List.getD_eq_getElem _ _ hrlen, List.getElem_map,
              ← List.getD_eq_getElem _ _ hr]
          | succ k =>
            have hge : ((gnitb ns).map (fun t => i :: t)).length
                ≤ (k + 1) * (gnitb ns).length + r := by
              rw [List.length_map]
              calc (gnitb ns).length ≤ (k + 1) * (gnitb ns).length := by
                    nlinarith
                _ ≤ (k + 1) * (gnitb ns).length + r := by omega
            rw [getD_append_right [] _ _ hge, List.length_map]
            have harith : (k + 1) * (gnitb ns).length + r - (gnitb ns).length
                = k * (gnitb ns).length + r := by
              have : (k + 1) * (gnitb ns).length
                  = k * (gnitb ns).length + (gnitb ns).length := by ring
              omega
            rw [harith, ih2 k r (by simpa using hk) hr]
            simp
      rw [hblock (List.range n) x (boxIdx ns xs) (by simpa) ihlt]
      rw [List.getD_eq_getElem _ _ (by simpa), List.getElem_range, ihget]
    · rw [hbox]
      have hlen : (gnitb (n :: ns)).length = n * ns.prod := by
        rw [length_gnitb, List.prod_cons]
      rw [hlen]
      have h1 : boxIdx ns xs < ns.prod := by rwa [length_gnitb] at ihlt
      have h2 : x * (gnitb ns).length = x * ns.prod := by rw [length_gnitb]
      rw [h2]
      nlinarith

theorem idxIn_gnitb_eq_boxIdx {ns : List ℕ} {v : Mi}
    (h : List.Forall₂ (· < ·) v ns) :
    idxIn (gnitb ns) v = boxIdx ns v := by
  obtain ⟨hget, hlt⟩ := gnitb_getD_boxIdx h
  exact idxIn_unique (nodup_gnitb ns) hlt hget

theorem add_mi_getD {a b : Mi} (hl : a.length = b.length) (k : ℕ) :
    (add_mi a b).getD k 0 = a.getD k 0 + b.getD k 0 := by
  induction a generalizing b k with
  | nil =>
    cases b with
    | nil => simp [add_mi]
    | cons y ys => simp at hl
  | cons x xs ih =>
    cases b with
    | nil => simp at hl
    | cons y ys =>
      cases k with
      | zero => simp [add_mi]
      | succ k =>
        have : add_mi (x :: xs) (y :: ys) = (x + y) :: add_mi xs ys := rfl
        rw [this, List.getD_cons_succ, List.getD_cons_succ, List.getD_cons_succ,
          ih (by simpa using hl) k]

theorem add_mi_length {a b : Mi} (hl : a.length = b.length) :
    (add_mi a b).length = a.length := by
  unfold add_mi
  rw [List.length_map, List.length_zip, hl, min_self]

theorem boxIdx_add {ns : List ℕ} {u v : Mi}
    (hu : List.Forall₂ (· < ·) u ns) (hl : u.length = v.length)
    (hsum : List.Forall₂ (· < ·) (add_mi u v) ns) :
    boxIdx ns (add_mi u v) = boxIdx ns u + boxIdx ns v := by
  induction u generalizing v ns with
  | nil =>
    cases v with
    | nil =>
      cases ns with
      | nil => simp [boxIdx, add_mi]
      | cons n ns => cases hu
    | cons y ys => simp at hl
  | cons x xs ih =>
    cases v with
    | nil => simp at hl
    | cons y ys =>
      cases ns with
      | nil => cases hu
      | cons n ns =>
        have hcons : add_mi (x :: xs) (y :: ys) = (x + y) :: add_mi xs ys := rfl
        rw [hcons] at hsum ⊢
        cases hu with
        | cons hx hxs =>
          cases hsum with
          | cons hxy hxys =>
            have hb1 : boxIdx (n :: ns) ((x + y) :: add_mi xs ys)
                = (x + y) * (gnitb ns).length + boxIdx ns (add_mi xs ys) := rfl
            have hb2 : boxIdx (n :: ns) (x :: xs)
                = x * (gnitb ns).length + boxIdx ns xs := rfl
            have hb3 : boxIdx (n :: ns) (y :: ys)
                = y * (gnitb ns).length + boxIdx ns ys := rfl
            rw [hb1, hb2, hb3, ih hxs (by simpa using hl) hxys]
            ring

theorem forall2_lt_getD {s ns : List ℕ} (h : List.Forall₂ (· < ·) s ns) :
    ∀ i, i < ns.length → s.getD i 0 < ns.getD i 0 := by
  induction h with
  | nil => intro i hi; simp at hi
  | cons h1 h2 ih =>
    intro i hi
    cases i with
    | zero => simpa using h1
    | succ i => exact ih i (by simpa using hi)

theorem mem_gnitb_getD {ns : List ℕ} {s : Mi} :
    s ∈ gnitb ns ↔ s.length = ns.length ∧ ∀ i < ns.length, s.getD i 0 < ns.getD i 0 := by
  rw [mem_gnitb]
  constructor
  · intro h
    exact ⟨List.Forall₂.length_eq h, fun i hi => forall2_lt_getD h i hi⟩
  · intro ⟨hl, hp⟩
    induction ns generalizing s with
    | nil =>
      rw [List.length_eq_zero.mp hl]
      exact List.Forall₂.nil
    | cons n ns ih =>
      cases s with
      | nil => simp at hl
      | cons x xs =>
        refine List.Forall₂.cons (by simpa using hp 0 (by simp)) ?_
        exact ih (by simpa using hl)
          (fun i hi => by simpa using hp (i + 1) (by simpa using hi))

theorem le_foldr_max {x : ℕ} {l : List ℕ} (h : x ∈ l) : x ≤ l.foldr max 0 := by
  induction l with
  | nil => simp at h
  | cons y ys ih =>
    rcases List.mem_cons.mp h with h1 | h1
    · subst h1; simp [List.foldr_cons]
    · calc x ≤ ys.foldr max 0 := ih h1
        _ ≤ max y (ys.foldr max 0) := le_max_right _ _

theorem maxMi_length (dim pSrc pTgt : ℕ) : (maxMi dim pSrc pTgt).length = dim := by
  unfold maxMi
  rw [List.length_map, List.length_range]

theorem maxMi_getD {dim pSrc pTgt : ℕ} {k : ℕ} (hk : k < dim) :
    (maxMi dim pSrc pTgt).getD k 0
      = ((fullIds dim pSrc).map (fun mi => mi.getD k 0)).foldr max 0
        + ((fullIds dim pTgt).map (fun mi => mi.getD k 0)).foldr max 0 := by
  unfold maxMi
  rw [List.getD_eq_getElem _ _ (by rw [List.length_map, List.length_range]; omega),
    List.getElem_map, List.getElem_range]

theorem getD_le_maxMi_src {dim pSrc pTgt : ℕ} {s : Mi} (hs : s ∈ fullIds dim pSrc)
    {k : ℕ} (hk : k < dim) :
    s.getD k 0 ≤ (maxMi dim pSrc pTgt).getD k 0 := by
  rw [maxMi_getD hk]
  have h1 : s.getD k 0 ∈ (fullIds dim pSrc).map (fun mi => mi.getD k 0) :=
    List.mem_map.mpr ⟨s, hs, rfl⟩
  have := le_foldr_max h1
  omega

theorem getD_le_maxMi_tgt {dim pSrc pTgt : ℕ} {t : Mi} (ht : t ∈ fullIds dim pTgt)
    {k : ℕ} (hk : k < dim) :
    t.getD k 0 ≤ (maxMi dim pSrc pTgt).getD k 0 := by
  rw [maxMi_getD hk]
  have h1 : t.getD k 0 ∈ (fullIds dim pTgt).map (fun mi => mi.getD k 0) :=
    List.mem_map.mpr ⟨t, ht, rfl⟩
  have := le_foldr_max h1
  omega

theorem getD_map_add_one_bounds {l : List ℕ} {k : ℕ} :
    k < l.length → (l.map (· + 1)).getD k 0 = l.getD k 0 + 1 :=
  fun h => getD_map_add_one h

theorem mem_circulantMis_of_le {dim pSrc pTgt : ℕ} {v : Mi}
    (hlen : v.length = dim)
    (hle : ∀ k < dim, v.getD k 0 ≤ (maxMi dim pSrc pTgt).getD k 0) :
    v ∈ circulantMis dim pSrc pTgt := by
  unfold circulantMis
  rw [mem_gnitb_getD]
  constructor
  · rw [List.length_map, maxMi_length, hlen]
  · intro i hi
    rw [List.length_map, maxMi_length] at hi
    rw [getD_map_add_one (by rw [maxMi_length]; omega)]
    have := hle i hi
    omega

theorem src_mem_circulantMis {dim pSrc pTgt : ℕ} {s : Mi}
    (hs : s ∈ fullIds dim pSrc) : s ∈ circulantMis dim pSrc pTgt := by
  refine mem_circulantMis_of_le (mem_fullIds.mp hs).1 ?_
  intro k hk
  exact getD_le_maxMi_src hs hk

theorem tgt_mem_circulantMis {dim pSrc pTgt : ℕ} {t : Mi}
    (ht : t ∈ fullIds dim pTgt) : t ∈ circulantMis dim pSrc pTgt := by
  refine mem_circulantMis_of_le (mem_fullIds.mp ht).1 ?_
  intro k hk
  exact getD_le_maxMi_tgt ht hk

theorem add_mem_circulantMis {dim pSrc pTgt : ℕ} {s t : Mi}
    (hs : s ∈ fullIds dim pSrc) (ht : t ∈ fullIds dim pTgt) :
    add_mi s t ∈ circulantMis dim pSrc pTgt := by
  have hsl : s.length = dim := (mem_fullIds.mp hs).1
  have htl : t.length = dim := (mem_fullIds.mp ht).1
  refine mem_circulantMis_of_le (by rw [add_mi_length (by omega), hsl]) ?_
  intro k hk
  rw [add_mi_getD (by omega), maxMi_getD hk]
  have h1 := @getD_le_maxMi_src dim pSrc pTgt s hs k hk
  have h2 := @getD_le_maxMi_tgt dim pSrc pTgt t ht k hk
  rw [maxMi_getD hk] at h1 h2
  have h1b : s.getD k 0
      ≤ ((fullIds dim pSrc).map (fun mi => mi.getD k 0)).foldr max 0 :=
    le_foldr_max (List.mem_map.mpr ⟨s, hs, rfl⟩)
  have h2b : t.getD k 0
      ≤ ((fullIds dim pTgt).map (fun mi => mi.getD k 0)).foldr max 0 :=
    le_foldr_max (List.mem_map.mpr ⟨t, ht, rfl⟩)
  omega

/-- Linearity of the circulant index map on sums that stay inside the box. -/
theorem idxIn_circulant_add {dim pSrc pTgt : ℕ} {s t : Mi}
    (hs : s ∈ fullIds dim pSrc) (ht : t ∈ fullIds dim pTgt) :
    idxIn (circulantMis dim pSrc pTgt) (add_mi s t)
      = idxIn (circulantMis dim pSrc pTgt) s
        + idxIn (circulantMis dim pSrc pTgt) t := by
  have hsl : s.length = dim := (mem_fullIds.mp hs).1
  have htl : t.length = dim := (mem_fullIds.mp ht).1
  have hboxS := mem_gnitb.mp (@src_mem_circulantMis dim pSrc pTgt s hs)
  have hboxT := mem_gnitb.mp (@tgt_mem_circulantMis dim pSrc pTgt t ht)
  have hboxA := mem_gnitb.mp (add_mem_circulantMis hs ht)
  unfold circulantMis at *
  rw [idxIn_gnitb_eq_boxIdx hboxA, idxIn_gnitb_eq_boxIdx hboxS,
    idxIn_gnitb_eq_boxIdx hboxT]
  have haux : boxIdx ((maxMi dim pSrc pTgt).map (· + 1)) (add_mi s t)
      = boxIdx ((maxMi dim pSrc pTgt).map (· + 1)) s
        + boxIdx ((maxMi dim pSrc pTgt).map (· + 1)) t :=
    boxIdx_add hboxS (by omega) hboxA
  exact haux

end IndexInfrastructure

section ClaimC7

theorem mem_foldl_dedup (l acc : List Mi) (x : Mi) :
    x ∈ l.foldl (fun acc y => if y ∈ acc then acc else acc ++ [y]) acc
      ↔ x ∈ acc ∨ x ∈ l := by
  induction l generalizing acc with
  | nil => simp
  | cons y l ih =>
    rw [List.foldl_cons, ih]
    by_cases hy : y ∈ acc
    · rw [if_pos hy]
      constructor
      · rintro (h | h)
        · exact Or.inl h
        · exact Or.inr (List.mem_cons_of_mem y h)
      · rintro (h | h)
        · exact Or.inl h
        · rcases List.mem_cons.mp h with h1 | h1
          · exact Or.inl (h1 ▸ hy)
          · exact Or.inr h1
    · rw [if_neg hy]
      simp only [List.mem_append, List.mem_singleton, List.mem_cons]
      tauto

theorem nodup_foldl_dedup (l acc : List Mi) (hacc : acc.Nodup) :
    (l.foldl (fun acc y => if y ∈ acc then acc else acc ++ [y]) acc).Nodup := by
  induction l generalizing acc with
  | nil => simpa
  | cons y l ih =>
    rw [List.foldl_cons]
    by_cases hy : y ∈ acc
    · rw [if_pos hy]
      exact ih acc hacc
    · rw [if_neg hy]
      refine ih _ ?_
      rw [List.nodup_append]
      exact ⟨hacc, List.nodup_singleton y,
        by intro a ha hb; simp only [List.mem_singleton] at hb; exact hy (hb ▸ ha)⟩

theorem mem_neededVectorTerms {dim pSrc pTgt : ℕ} {u : Mi} :
    u ∈ neededVectorTerms dim pSrc pTgt
      ↔ ∃ t ∈ fullIds dim pTgt, ∃ s ∈ fullIds dim pSrc, u = add_mi s t := by
  unfold neededVectorTerms dedupAppend
  rw [mem_foldl_dedup]
  simp only [List.not_mem_nil, false_or, List.mem_flatMap, List.mem_map]
  constructor
  · rintro ⟨t, ht, s, hs, rfl⟩
    exact ⟨t, ht, s, hs, rfl⟩
  · rintro ⟨t, ht, s, hs, rfl⟩
    exact ⟨t, ht, s, hs, rfl⟩

theorem nodup_neededVectorTerms (dim pSrc pTgt : ℕ) :
    (neededVectorTerms dim pSrc pTgt).Nodup :=
  nodup_foldl_dedup _ [] List.nodup_nil

theorem needed_subset_circulant {dim pSrc pTgt : ℕ} {u : Mi}
    (hu : u ∈ neededVectorTerms dim pSrc pTgt) :
    u ∈ circulantMis dim pSrc pTgt := by
  obtain ⟨t, ht, s, hs, rfl⟩ := mem_neededVectorTerms.mp hu
  exact add_mem_circulantMis hs ht

/-- Greedy split of a multi-index: take as much as possible from the front
within the given degree budget. -/
def splitTake : ℕ → Mi → Mi
  | _, [] => []
  | b, x :: xs => min b x :: splitTake (b - min b x) xs

/-- Componentwise truncated difference of two multi-indices. -/
def sub_mi (a b : Mi) : Mi := (a.zip b).map (fun p => p.1 - p.2)

theorem splitTake_length (b : ℕ) (u : Mi) : (splitTake b u).length = u.length := by
  induction u generalizing b with
  | nil => simp [splitTake]
  | cons x xs ih =>
    rw [show splitTake b (x :: xs) = min b x :: splitTake (b - min b x) xs from rfl]
    simp [ih]

theorem splitTake_le (b : ℕ) (u : Mi) : miLe (splitTake b u) u := by
  induction u generalizing b with
  | nil => exact List.Forall₂.nil
  | cons x xs ih =>
    rw [show splitTake b (x :: xs) = min b x :: splitTake (b - min b x) xs from rfl]
    exact List.Forall₂.cons (by omega) (ih _)

theorem splitTake_sum (b : ℕ) (u : Mi) : (splitTake b u).sum = min b u.sum := by
  induction u generalizing b with
  | nil => simp [splitTake]
  | cons x xs ih =>
    rw [show splitTake b (x :: xs) = min b x :: splitTake (b - min b x) xs from rfl]
    rw [List.sum_cons, List.sum_cons, ih]
    omega

theorem sub_mi_length {a b : Mi} (hl : a.length = b.length) :
    (sub_mi a b).length = a.length := by
  unfold sub_mi
  rw [List.length_map, List.length_zip, hl, min_self]

theorem sub_mi_sum {s u : Mi} (h : miLe s u) :
    (sub_mi u s).sum = u.sum - s.sum := by
  induction h with
  | nil => simp [sub_mi]
  | @cons a b xs ys hab hrest ih =>
    have : sub_mi (b :: ys) (a :: xs) = (b - a) :: sub_mi ys xs := rfl
    rw [this, List.sum_cons, List.sum_cons, List.sum_cons, ih]
    have := miLe_sum_le hrest
    omega

theorem add_splitTake_sub (b : ℕ) (u : Mi) :
    add_mi (splitTake b u) (sub_mi u (splitTake b u)) = u := by
  induction u generalizing b with
  | nil => rfl
  | cons x xs ih =>
    rw [show splitTake b (x :: xs) = min b x :: splitTake (b - min b x) xs from rfl]
    have h1 : sub_mi (x :: xs) (min b x :: splitTake (b - min b x) xs)
        = (x - min b x) :: sub_mi xs (splitTake (b - min b x) xs) := rfl
    rw [h1]
    have h2 : add_mi (min b x :: splitTake (b - min b x) xs)
        ((x - min b x) :: sub_mi xs (splitTake (b - min b x) xs))
        = (min b x + (x - min b x)) :: add_mi (splitTake (b - min b x) xs)
            (sub_mi xs (splitTake (b - min b x) xs)) := rfl
    rw [h2, ih]
    congr 1
    omega

theorem srcplusderiv_subset_needed {dim pSrc pTgt : ℕ} {u : Mi}
    (hu : u ∈ srcplusderivIds dim pSrc pTgt) :
    u ∈ neededVectorTerms dim pSrc pTgt := by
  unfold srcplusderivIds at hu
  rw [List.mem_filter] at hu
  obtain ⟨humem, _⟩ := hu
  obtain ⟨hulen, husum⟩ := mem_fullIds.mp humem
  set s := splitTake pSrc u with hsdef
  have hsle : miLe s u := splitTake_le pSrc u
  have hslen : s.length = dim := by rw [hsdef, splitTake_length, hulen]
  have hssum : s.sum = min pSrc u.sum := splitTake_sum pSrc u
  set t := sub_mi u s with htdef
  have htlen : t.length = dim := by
    rw [htdef, sub_mi_length (by rw [hulen, hslen]), hulen]
  have htsum : t.sum = u.sum - s.sum := sub_mi_sum hsle
  rw [mem_neededVectorTerms]
  refine ⟨t, mem_fullIds.mpr ⟨htlen, by omega⟩, s,
    mem_fullIds.mpr ⟨hslen, by omega⟩, ?_⟩
  rw [hsdef, htdef]
  exact (add_splitTake_sub pSrc u).symm

/-- C7: (a) the order-(pSrc+pTgt) wrangler identifiers are all needed terms,
so the internal assertion in `translation_classes_dependent_data` never
fires; (b) every sum of a stored source and stored target identifier lies
in the circulant index space; (c) the map from needed entries to circulant
positions is injective; (d) the padded space is at least as large as the
set of distinct needed Toeplitz entries. -/
theorem circulant_index_space_valid (dim pSrc pTgt : ℕ) :
    (∀ u ∈ srcplusderivIds dim pSrc pTgt, u ∈ neededVectorTerms dim pSrc pTgt)
    ∧ (∀ s ∈ fullIds dim pSrc, ∀ t ∈ fullIds dim pTgt,
        add_mi s t ∈ circulantMis dim pSrc pTgt)
    ∧ (∀ u ∈ neededVectorTerms dim pSrc pTgt,
        ∀ v ∈ neededVectorTerms dim pSrc pTgt,
          idxIn (circulantMis dim pSrc pTgt) u
            = idxIn (circulantMis dim pSrc pTgt) v → u = v)
    ∧ (neededVectorTerms dim pSrc pTgt).length
        ≤ (circulantMis dim pSrc pTgt).length := by
  refine ⟨fun u hu => srcplusderiv_subset_needed hu,
    fun s hs t ht => add_mem_circulantMis hs ht,
    fun u hu v hv h => idxIn_inj (nodup_gnitb _)
      (needed_subset_circulant hu) (needed_subset_circulant hv) h,
    ?_⟩
  have h1 : (neededVectorTerms dim pSrc pTgt).toFinset.card
      = (neededVectorTerms dim pSrc pTgt).length :=
    List.toFinset_card_of_nodup (nodup_neededVectorTerms dim pSrc pTgt)
  have h2 : (neededVectorTerms dim pSrc pTgt).toFinset
      ⊆ (circulantMis dim pSrc pTgt).toFinset := by
    intro x hx
    rw [List.mem_toFinset] at hx ⊢
    exact needed_subset_circulant hx
  calc (neededVectorTerms dim pSrc pTgt).length
      = (neededVectorTerms dim pSrc pTgt).toFinset.card := h1.symm
    _ ≤ (circulantMis dim pSrc pTgt).toFinset.card := Finset.card_le_card h2
    _ ≤ (circulantMis dim pSrc pTgt).length := List.toFinset_card_le _

/-- Witness for C7 at `dim = 2`, source and target order 1. -/
theorem circulant_index_space_valid_witness :
    add_mi [1, 0] [0, 1] ∈ circulantMis 2 1 1
      ∧ [1, 1] ∈ neededVectorTerms 2 1 1
      ∧ (neededVectorTerms 2 1 1).length ≤ (circulantMis 2 1 1).length :=
  ⟨(circulant_index_space_valid 2 1 1).2.1 [1, 0] (by decide) [0, 1] (by decide),
    (circulant_index_space_valid 2 1 1).1 [1, 1] (by decide),
    (circulant_index_space_valid 2 1 1).2.2.2⟩

end ClaimC7

section FftConv

theorem prod_map_succ_pos (l : List ℕ) : 0 < (l.map (· + 1)).prod := by
  induction l with
  | nil => simp
  | cons x xs ih =>
    rw [List.map_cons, List.prod_cons]
    exact Nat.mul_pos (Nat.succ_pos x) ih

theorem circulantMis_length_pos (dim pSrc pTgt : ℕ) :
    0 < (circulantMis dim pSrc pTgt).length := by
  unfold circulantMis
  rw [length_gnitb]
  exact prod_map_succ_pos _

theorem wrap_index_iff {N i j k : ℕ} (hN : 0 < N) (hi : i < N) (hj : j < N)
    (hk : k < N) :
    (i + k + (N - 1) * j) % N = 0 ↔ k = (j + N - i) % N := by
  obtain ⟨M, rfl⟩ : ∃ M, N = M + 1 := ⟨N - 1, by omega⟩
  simp only [Nat.add_sub_cancel]
  have hcLt : (j + (M + 1) - i) % (M + 1) < M + 1 := Nat.mod_lt _ (Nat.succ_pos M)
  have h0 : (i + (j + (M + 1) - i) % (M + 1) + M * j) % (M + 1) = 0 := by
    have h1 : i + (j + (M + 1) - i) % (M + 1) + M * j
        ≡ i + (j + (M + 1) - i) + M * j [MOD M + 1] :=
      ((Nat.ModEq.refl i).add (Nat.mod_modEq (j + (M + 1) - i) (M + 1))).add
        (Nat.ModEq.refl (M * j))
    have h2 : i + (j + (M + 1) - i) + M * j = (M + 1) * (1 + j) := by
      have h3 : i + (j + (M + 1) - i) = j + (M + 1) := by omega
      rw [h3]; ring
    have h4 : ((M + 1) * (1 + j)) % (M + 1) = 0 := Nat.mul_mod_right _ _
    calc (i + (j + (M + 1) - i) % (M + 1) + M * j) % (M + 1)
        = (i + (j + (M + 1) - i) + M * j) % (M + 1) := h1
      _ = 0 := by rw [h2]; exact h4
  constructor
  · intro h
    have hme : i + k + M * j ≡ i + (j + (M + 1) - i) % (M + 1) + M * j [MOD M + 1] := by
      show (i + k + M * j) % (M + 1)
          = (i + (j + (M + 1) - i) % (M + 1) + M * j) % (M + 1)
      rw [h, h0]
    have hkc : k ≡ (j + (M + 1) - i) % (M + 1) [MOD M + 1] :=
      Nat.ModEq.add_left_cancel' i (Nat.ModEq.add_right_cancel' (M * j) hme)
    have hkc2 : k % (M + 1) = (j + (M + 1) - i) % (M + 1) % (M + 1) := hkc
    rw [Nat.mod_eq_of_lt hk, Nat.mod_eq_of_lt hcLt] at hkc2
    exact hkc2
  · intro h
    rw [h]
    exact h0

end FftConv

section FftConvField

variable {F : Type} [Field F]

theorem getD_range_map (g : ℕ → F) {l n : ℕ} (hl : l < n) :
    ((List.range n).map g).getD l 0 = g l := by
  rw [List.getD_eq_getElem _ _ (by simpa using hl), List.getElem_map,
    List.getElem_range]

theorem getD_set_ne (l : List F) :
    ∀ (i j : ℕ), i ≠ j → ∀ (v d : F), (l.set i v).getD j d = l.getD j d := by
  induction l with
  | nil => intro i j h v d; rfl
  | cons x xs ih =>
    intro i j h v d
    cases i with
    | zero =>
      cases j with
      | zero => exact absurd rfl h
      | succ j => rfl
    | succ i =>
      cases j with
      | zero => rfl
      | succ j =>
        have hstep : (x :: xs).set (i + 1) v = x :: xs.set i v := rfl
        rw [hstep, List.getD_cons_succ, List.getD_cons_succ, ih i j (by omega) v d]

theorem getD_replicate_zero (n q : ℕ) : (List.replicate n (0 : F)).getD q 0 = 0 := by
  induction n generalizing q with
  | zero => rfl
  | succ n ih =>
    cases q with
    | zero => rfl
    | succ q =>
      have hstep : List.replicate (n + 1) (0 : F) = 0 :: List.replicate n 0 := rfl
      rw [hstep, List.getD_cons_succ, ih]

theorem foldl_set_length {α : Type} (pos : α → ℕ) (val : α → F) (l : List α)
    (init : List F) :
    (l.foldl (fun acc w => acc.set (pos w) (val w)) init).length = init.length := by
  induction l generalizing init with
  | nil => rfl
  | cons w l ih => rw [List.foldl_cons, ih, List.length_set]

theorem foldl_set_getD_cases {α : Type} (pos : α → ℕ) (val : α → F) (l : List α)
    (init : List F) (q : ℕ) (d : F) :
    (l.foldl (fun acc w => acc.set (pos w) (val w)) init).getD q d = init.getD q d
      ∨ ∃ w ∈ l, pos w = q := by
  induction l generalizing init with
  | nil => exact Or.inl rfl
  | cons w l ih =>
    rw [List.foldl_cons]
    rcases ih (init.set (pos w) (val w)) with h | ⟨w2, hw2, hq⟩
    · by_cases hpos : pos w = q
      · exact Or.inr ⟨w, List.mem_cons_self w l, hpos⟩
      · exact Or.inl (h.trans (getD_set_ne init (pos w) q hpos (val w) d))
    · exact Or.inr ⟨w2, List.mem_cons_of_mem w hw2, hq⟩

theorem vtPreprocess_support {dim pSrc pTgt : ℕ} (C : List F) (k : ℕ)
    (h : (vtPreprocess dim pSrc pTgt C).getD k 0 ≠ 0) :
    ∃ s ∈ fullIds dim pSrc, idxIn (circulantMis dim pSrc pTgt) s = k := by
  unfold vtPreprocess at h
  rcases foldl_set_getD_cases
      (fun p : Mi × F => idxIn (circulantMis dim pSrc pTgt) p.1)
      (fun p : Mi × F => p.2) ((fullIds dim pSrc).zip C)
      (List.replicate (circulantMis dim pSrc pTgt).length 0) k 0 with
    h0 | ⟨w, hw, hq⟩
  · exact absurd (h0.trans (getD_replicate_zero _ _)) h
  · exact ⟨w.1, (List.of_mem_zip hw).1, hq⟩

/-- The cyclic convolution over the circulant index space, entry
`j ↦ Σ_i a_i · b_((j − i) mod N)`; the reference semantics of the
FFT-accelerated product. -/
def cyclicConv (a b : List F) : List F :=
  (List.range a.length).map (fun j =>
    ((List.range a.length).map (fun i =>
      a.getD i 0 * b.getD ((j + a.length - i) % a.length) 0)).sum)

theorem fftM_length (ω : F) (x : List F) : (fftM ω x).length = x.length := by
  simp [fftM]

theorem ifftM_length (ω invN : F) (x : List F) :
    (ifftM ω invN x).length = x.length := by
  simp [ifftM]

theorem cyclicConv_getD (a b : List F) {j : ℕ} (hj : j < a.length) :
    (cyclicConv a b).getD j 0
      = ∑ i in Finset.range a.length,
          a.getD i 0 * b.getD ((j + a.length - i) % a.length) 0 := by
  unfold cyclicConv
  rw [getD_range_map _ hj]
  show ((List.range a.length).map (fun i =>
      a.getD i 0 * b.getD ((j + a.length - i) % a.length) 0)).sum = _
  rw [listSum_range_eq]

theorem fftM_getD (ω : F) (x : List F) {l : ℕ} (hl : l < x.length) :
    (fftM ω x).getD l 0
      = ∑ i in Finset.range x.length, x.getD i 0 * ω ^ (i * l) := by
  unfold fftM
  rw [getD_range_map _ hl]
  show ((List.range x.length).map (fun i => x.getD i 0 * ω ^ (i * l))).sum = _
  rw [listSum_range_eq]

theorem zipWith_mul_getD (x y : List F) {l : ℕ} (hx : l < x.length)
    (hy : l < y.length) :
    (List.zipWith (· * ·) x y).getD l 0 = x.getD l 0 * y.getD l 0 := by
  have hlen : l < (List.zipWith (· * ·) x y).length := by
    rw [List.length_zipWith]
    omega
  rw [List.getD_eq_getElem _ _ hlen, List.getElem_zipWith,
    ← List.getD_eq_getElem x _ hx, ← List.getD_eq_getElem y _ hy]

theorem getD_reverse (l : List F) {i : ℕ} (hi : i < l.length) :
    l.reverse.getD i 0 = l.getD (l.length - 1 - i) 0 := by
  rw [List.getD_eq_getElem _ _ (by rw [List.length_reverse]; exact hi),
    List.getElem_reverse, ← List.getD_eq_getElem _ _ (by omega)]

theorem dft_sum_mod (ω : F) {N : ℕ} (hω : ω ^ N = 1) (m : ℕ) :
    ∑ l in Finset.range N, ω ^ (l * m)
      = ∑ l in Finset.range N, ω ^ (l * (m % N)) := by
  refine Finset.sum_congr rfl (fun l _ => ?_)
  have hm : l * m = l * (m % N) + N * (l * (m / N)) := by
    conv_lhs => rw [← Nat.mod_add_div m N]
    ring
  rw [hm, pow_add, pow_mul ω N (l * (m / N)), hω, one_pow, mul_one]

theorem dft_sum_eval (ω : F) {N : ℕ} (hN : 0 < N) (hω : ω ^ N = 1)
    (hgeo : ∀ r, 0 < r → r < N →
      ((List.range N).map (fun k => ω ^ (r * k))).sum = 0) (m : ℕ) :
    ∑ l in Finset.range N, ω ^ (l * m)
      = if m % N = 0 then (N : F) else 0 := by
  rw [dft_sum_mod ω hω m]
  by_cases h : m % N = 0
  · rw [if_pos h, h]
    simp
  · rw [if_neg h]
    have hgeo2 := hgeo (m % N) (Nat.pos_of_ne_zero h) (Nat.mod_lt m hN)
    rw [listSum_range_eq] at hgeo2
    calc ∑ l in Finset.range N, ω ^ (l * (m % N))
        = ∑ l in Finset.range N, ω ^ (m % N * l) :=
          Finset.sum_congr rfl (fun l _ => by rw [Nat.mul_comm])
      _ = 0 := hgeo2

/-- The discrete convolution theorem for the modelled transforms: with a
principal root of unity and an inverse of the length, the inverse
transform of the pointwise product of two forward transforms is the
cyclic convolution. -/
theorem fft_convolution (ω invN : F) {N : ℕ} (hN : 0 < N) (hω : ω ^ N = 1)
    (hgeo : ∀ r, 0 < r → r < N →
      ((List.range N).map (fun k => ω ^ (r * k))).sum = 0)
    (hinv : (N : F) * invN = 1)
    (a b : List F) (ha : a.length = N) (hb : b.length = N) :
    ifftM ω invN (List.zipWith (· * ·) (fftM ω a) (fftM ω b)) = cyclicConv a b := by
  have hz : (List.zipWith (· * ·) (fftM ω a) (fftM ω b)).length = N := by
    rw [List.length_zipWith, fftM_length, fftM_length, ha, hb, min_self]
  unfold ifftM cyclicConv
  rw [hz, ha]
  refine List.map_congr_left (fun j hj => ?_)
  rw [List.mem_range] at hj
  have hz_entry : ∀ l, l < N →
      (List.zipWith (· * ·) (fftM ω a) (fftM ω b)).getD l 0
        = (∑ i in Finset.range N, a.getD i 0 * ω ^ (i * l))
          * (∑ k in Finset.range N, b.getD k 0 * ω ^ (k * l)) := by
    intro l hl
    rw [zipWith_mul_getD _ _ (by rw [fftM_length, ha]; exact hl)
        (by rw [fftM_length, hb]; exact hl),
      fftM_getD ω a (by rw [ha]; exact hl),
      fftM_getD ω b (by rw [hb]; exact hl), ha, hb]
  rw [listSum_range_eq, listSum_range_eq]
  have h1 : (∑ l in Finset.range N,
      (List.zipWith (· * ·) (fftM ω a) (fftM ω b)).getD l 0 * (ω ^ (N - 1)) ^ (l * j))
      = ∑ i in Finset.range N, ∑ k in Finset.range N,
          a.getD i 0 * b.getD k 0
            * (if (i + k + (N - 1) * j) % N = 0 then (N : F) else 0) := by
    calc (∑ l in Finset.range N,
        (List.zipWith (· * ·) (fftM ω a) (fftM ω b)).getD l 0 * (ω ^ (N - 1)) ^ (l * j))
        = ∑ l in Finset.range N,
            ((∑ i in Finset.range N, a.getD i 0 * ω ^ (i * l))
              * (∑ k in Finset.range N, b.getD k 0 * ω ^ (k * l)))
              * (ω ^ (N - 1)) ^ (l * j) := by
          refine Finset.sum_congr rfl (fun l hl => ?_)
          rw [hz_entry l (Finset.mem_range.mp hl)]
      _ = ∑ l in Finset.range N, ∑ i in Finset.range N, ∑ k in Finset.range N,
            (a.getD i 0 * ω ^ (i * l))
              * ((b.getD k 0 * ω ^ (k * l)) * (ω ^ (N - 1)) ^ (l * j)) := by
          refine Finset.sum_congr rfl (fun l hl => ?_)
          rw [Finset.sum_mul_sum, Finset.sum_mul]
          refine Finset.sum_congr rfl (fun i hi => ?_)
          rw [Finset.sum_mul]
          refine Finset.sum_congr rfl (fun k hk => ?_)
          ring
      _ = ∑ i in Finset.range N, ∑ k in Finset.range N, ∑ l in Finset.range N,
            (a.getD i 0 * ω ^ (i * l))
              * ((b.getD k 0 * ω ^ (k * l)) * (ω ^ (N - 1)) ^ (l * j)) := by
          rw [Finset.sum_comm]
          refine Finset.sum_congr rfl (fun i hi => ?_)
          rw [Finset.sum_comm]
      _ = ∑ i in Finset.range N, ∑ k in Finset.range N,
            a.getD i 0 * b.getD k 0
              * ∑ l in Finset.range N, ω ^ (l * (i + k + (N - 1) * j)) := by
          refine Finset.sum_congr rfl (fun i hi => ?_)
          refine Finset.sum_congr rfl (fun k hk => ?_)
          rw [Finset.mul_sum]
          refine Finset.sum_congr rfl (fun l hl => ?_)
          have e : l * (i + k + (N - 1) * j) = i * l + (k * l + (N - 1) * (l * j)) := by
            ring
          rw [e, pow_add, pow_add, pow_mul]
          ring
      _ = ∑ i in Finset.range N, ∑ k in Finset.range N,
            a.getD i 0 * b.getD k 0
              * (if (i + k + (N - 1) * j) % N = 0 then (N : F) else 0) := by
          refine Finset.sum_congr rfl (fun i hi => ?_)
          refine Finset.sum_congr rfl (fun k hk => ?_)
          rw [dft_sum_eval ω hN hω hgeo]
  rw [h1]
  have h2 : ∀ i ∈ Finset.range N,
      (∑ k in Finset.range N, a.getD i 0 * b.getD k 0
        * (if (i + k + (N - 1) * j) % N = 0 then (N : F) else 0))
      = a.getD i 0 * b.getD ((j + N - i) % N) 0 * (N : F) := by
    intro i hi
    rw [Finset.mem_range] at hi
    have hk0 : (j + N - i) % N < N := Nat.mod_lt _ hN
    refine (Finset.sum_eq_single ((j + N - i) % N) ?_ ?_).trans ?_
    · intro k hk hne
      rw [Finset.mem_range] at hk
      rw [if_neg (fun hcond => hne ((wrap_index_iff hN hi hj hk).mp hcond)), mul_zero]
    · intro habs
      exact absurd (Finset.mem_range.mpr hk0) habs
    · rw [if_pos ((wrap_index_iff hN hi hj hk0).mpr rfl)]
  rw [Finset.sum_congr rfl h2, Finset.mul_sum]
  refine Finset.sum_congr rfl (fun i hi => ?_)
  have e2 : invN * (a.getD i 0 * b.getD ((j + N - i) % N) 0 * (N : F))
      = a.getD i 0 * b.getD ((j + N - i) % N) 0 * ((N : F) * invN) := by ring
  rw [e2, hinv, mul_one]

theorem translationClassesDependentData_length (deriv : Mi → F)
    (dim pSrc pTgt : ℕ) :
    (translationClassesDependentData deriv dim pSrc pTgt).length
      = (circulantMis dim pSrc pTgt).length := by
  unfold translationClassesDependentData
  exact (foldl_set_length
    (fun term => idxIn (circulantMis dim pSrc pTgt) term)
    (fun term => if term ∈ srcplusderivIds dim pSrc pTgt then deriv term else 0)
    (neededVectorTerms dim pSrc pTgt)
    (List.replicate (circulantMis dim pSrc pTgt).length 0)).trans (by simp)

theorem vtPreprocess_length (dim pSrc pTgt : ℕ) (C : List F) :
    (vtPreprocess dim pSrc pTgt C).length = (circulantMis dim pSrc pTgt).length := by
  unfold vtPreprocess
  exact (foldl_set_length
    (fun p : Mi × F => idxIn (circulantMis dim pSrc pTgt) p.1)
    (fun p : Mi × F => p.2) ((fullIds dim pSrc).zip C)
    (List.replicate (circulantMis dim pSrc pTgt).length 0)).trans (by simp)

/-- At every row read by the postprocessing step (the circulant position of
a stored target identifier), the reversed cyclic convolution agrees with
the upper-triangular Toeplitz matrix-vector product: the wrapped-around
convolution terms all vanish, because a nonzero preprocessed source entry
at position `idx s` combined with a target row `idx t` satisfies
`idx s + idx t = idx (s + t) < N`. -/
theorem conv_row_eq_matvec_row (deriv : Mi → F) (dim pSrc pTgt : ℕ) (C : List F)
    {t : Mi} (ht : t ∈ fullIds dim pTgt) :
    (cyclicConv (translationClassesDependentData deriv dim pSrc pTgt).reverse
        (vtPreprocess dim pSrc pTgt C)).reverse.getD
      (idxIn (circulantMis dim pSrc pTgt) t) 0
    = (matvec_toeplitz_upper_triangular (vtPreprocess dim pSrc pTgt C)
        (translationClassesDependentData deriv dim pSrc pTgt)).getD
      (idxIn (circulantMis dim pSrc pTgt) t) 0 := by
  set N := (circulantMis dim pSrc pTgt).length with hNdef
  set D := translationClassesDependentData deriv dim pSrc pTgt with hDdef
  set P := vtPreprocess dim pSrc pTgt C with hPdef
  set q := idxIn (circulantMis dim pSrc pTgt) t with hqdef
  have hq : q < N := idxIn_lt_length (tgt_mem_circulantMis ht)
  have hD : D.length = N := translationClassesDependentData_length deriv dim pSrc pTgt
  have hP : P.length = N := vtPreprocess_length dim pSrc pTgt C
  have hVlen : (cyclicConv D.reverse P).length = N := by
    unfold cyclicConv
    rw [List.length_map, List.length_range, List.length_reverse, hD]
  have hstep1 : (cyclicConv D.reverse P).reverse.getD q 0
      = (cyclicConv D.reverse P).getD (N - 1 - q) 0 := by
    rw [getD_reverse _ (by rw [hVlen]; exact hq), hVlen]
  have hstep2 : (cyclicConv D.reverse P).getD (N - 1 - q) 0
      = ∑ i in Finset.range N,
          D.reverse.getD i 0 * P.getD ((N - 1 - q + N - i) % N) 0 := by
    have hbound : N - 1 - q < D.reverse.length := by
      rw [List.length_reverse, hD]
      omega
    have h2 := cyclicConv_getD D.reverse P hbound
    rw [List.length_reverse, hD] at h2
    exact h2
  have hstep3 : (∑ i in Finset.range N,
        D.reverse.getD i 0 * P.getD ((N - 1 - q + N - i) % N) 0)
      = ∑ c in Finset.range N, D.getD c 0 * P.getD ((N + c - q) % N) 0 := by
    conv_rhs => rw [← Finset.sum_range_reflect]
    refine Finset.sum_congr rfl (fun i hi => ?_)
    rw [Finset.mem_range] at hi
    show D.reverse.getD i 0 * P.getD ((N - 1 - q + N - i) % N) 0
      = D.getD (N - 1 - i) 0 * P.getD ((N + (N - 1 - i) - q) % N) 0
    have hrev2 : D.reverse.getD i 0 = D.getD (N - 1 - i) 0 := by
      rw [getD_reverse D (by rw [hD]; exact hi), hD]
    have hix : N - 1 - q + N - i = N + (N - 1 - i) - q := by omega
    rw [hrev2, hix]
  have hstep4 : (∑ c in Finset.range N, D.getD c 0 * P.getD ((N + c - q) % N) 0)
      = ∑ c in Finset.range N,
          (if q ≤ c then P.getD (c - q) 0 * D.getD c 0 else 0) := by
    refine Finset.sum_congr rfl (fun c hc => ?_)
    rw [Finset.mem_range] at hc
    by_cases hqc : q ≤ c
    · rw [if_pos hqc]
      have hix : N + c - q = c - q + N := by omega
      rw [hix, Nat.add_mod_right, Nat.mod_eq_of_lt (by omega), mul_comm]
    · rw [if_neg hqc]
      have hix : (N + c - q) % N = N + c - q := Nat.mod_eq_of_lt (by omega)
      rw [hix]
      by_cases hP0 : P.getD (N + c - q) 0 = 0
      · rw [hP0, mul_zero]
      · exfalso
        obtain ⟨s, hs, hks⟩ := vtPreprocess_support C (N + c - q) hP0
        have hlt : idxIn (circulantMis dim pSrc pTgt) (add_mi s t)
            < (circulantMis dim pSrc pTgt).length :=
          idxIn_lt_length (add_mem_circulantMis hs ht)
        rw [idxIn_circulant_add hs ht, ← hqdef, ← hNdef] at hlt
        omega
  have hsub : Finset.Ico q N ⊆ Finset.range N := by
    intro x hx
    rw [Finset.mem_Ico] at hx
    exact Finset.mem_range.mpr hx.2
  have hstep5 : (∑ c in Finset.range N,
        (if q ≤ c then P.getD (c - q) 0 * D.getD c 0 else 0))
      = ∑ k in Finset.range (N - q), P.getD k 0 * D.getD (q + k) 0 := by
    calc (∑ c in Finset.range N,
          (if q ≤ c then P.getD (c - q) 0 * D.getD c 0 else 0))
        = ∑ c in Finset.Ico q N,
            (if q ≤ c then P.getD (c - q) 0 * D.getD c 0 else 0) := by
          refine (Finset.sum_subset hsub (fun x hx hnx => ?_)).symm
          rw [Finset.mem_range] at hx
          rw [if_neg]
          intro hqx
          exact hnx (Finset.mem_Ico.mpr ⟨hqx, hx⟩)
      _ = ∑ c in Finset.Ico q N, P.getD (c - q) 0 * D.getD c 0 := by
          refine Finset.sum_congr rfl (fun c hc => ?_)
          rw [Finset.mem_Ico] at hc
          rw [if_pos hc.1]
      _ = ∑ k in Finset.range (N - q), P.getD (q + k - q) 0 * D.getD (q + k) 0 := by
          rw [Finset.sum_Ico_eq_sum_range]
      _ = ∑ k in Finset.range (N - q), P.getD k 0 * D.getD (q + k) 0 := by
          refine Finset.sum_congr rfl (fun k hk => ?_)
          rw [Nat.add_sub_cancel_left]
  have hstep6 : (matvec_toeplitz_upper_triangular P D).getD q 0
      = ∑ k in Finset.range (N - q), P.getD k 0 * D.getD (q + k) 0 := by
    unfold matvec_toeplitz_upper_triangular
    rw [getD_range_map _ (by rw [hP]; exact hq)]
    show ((List.range' q (P.length - q)).map (fun col =>
        P.getD (col - q) 0 * D.getD col 0)).sum = _
    rw [hP, List.range'_eq_map_range, List.map_map, listSum_range_eq]
    refine Finset.sum_congr rfl (fun k hk => ?_)
    show P.getD (q + k - q) 0 * D.getD (q + k) 0 = P.getD k 0 * D.getD (q + k) 0
    rw [Nat.add_sub_cancel_left]
  rw [hstep1, hstep2, hstep3, hstep4, hstep5, hstep6]

/-- C3: for every Cartesian Taylor M2L input, the Direct strategy
(`VolumeTaylorM2LTranslation.translate`), the Precomputed+Circulant
pipeline (`VolumeTaylorM2LWithPreprocessedMultipoles`: the same
`translation_classes_dependent_data`, `preprocess_multipole_exprs`, bare
Toeplitz matvec `translate`, and `postprocess_local_exprs` phases run
separately), and the FFT pipeline (`VolumeTaylorM2LWithFFT`: reverse the
data vector, forward-transform it and the preprocessed sources,
pointwise-multiply, inverse-transform, keep the first `n` entries
reversed, then postprocess) produce identical target coefficient vectors,
whenever `ω` is a principal `N`-th root of unity with `N` invertible. -/
theorem m2l_three_strategies_agree (ω invN : F) (deriv : Mi → F)
    (dim pSrc pTgt : ℕ) (C : List F) (srcR tgtR : F)
    (hω : ω ^ (circulantMis dim pSrc pTgt).length = 1)
    (hgeo : ∀ r, 0 < r → r < (circulantMis dim pSrc pTgt).length →
      ((List.range (circulantMis dim pSrc pTgt).length).map
        (fun k => ω ^ (r * k))).sum = 0)
    (hinv : ((circulantMis dim pSrc pTgt).length : F) * invN = 1) :
    vtPreprocessedPipeline deriv dim pSrc pTgt C srcR tgtR
      = vtDirectTranslate deriv dim pSrc pTgt C srcR tgtR
    ∧ vtFftPipeline ω invN deriv dim pSrc pTgt C srcR tgtR
      = vtDirectTranslate deriv dim pSrc pTgt C srcR tgtR := by
  constructor
  · rfl
  · have hDlen : (translationClassesDependentData deriv dim pSrc pTgt).length
        = (circulantMis dim pSrc pTgt).length :=
      translationClassesDependentData_length deriv dim pSrc pTgt
    have hPlen : (vtPreprocess dim pSrc pTgt C).length
        = (circulantMis dim pSrc pTgt).length :=
      vtPreprocess_length dim pSrc pTgt C
    have hconv : ifftM ω invN (List.zipWith (· * ·)
          (fftM ω (translationClassesDependentData deriv dim pSrc pTgt).reverse)
          (fftM ω (vtPreprocess dim pSrc pTgt C)))
        = cyclicConv (translationClassesDependentData deriv dim pSrc pTgt).reverse
            (vtPreprocess dim pSrc pTgt C) :=
      fft_convolution ω invN (circulantMis_length_pos dim pSrc pTgt) hω hgeo hinv
        _ _ (by rw [List.length_reverse]; exact hDlen) hPlen
    have hVlen : (cyclicConv
          (translationClassesDependentData deriv dim pSrc pTgt).reverse
          (vtPreprocess dim pSrc pTgt C)).length
        = (circulantMis dim pSrc pTgt).length := by
      unfold cyclicConv
      rw [List.length_map, List.length_range, List.length_reverse, hDlen]
    have htake : (cyclicConv
          (translationClassesDependentData deriv dim pSrc pTgt).reverse
          (vtPreprocess dim pSrc pTgt C)).take (circulantMis dim pSrc pTgt).length
        = cyclicConv (translationClassesDependentData deriv dim pSrc pTgt).reverse
            (vtPreprocess dim pSrc pTgt C) := by
      rw [← hVlen]
      exact List.take_length _
    unfold vtFftPipeline vtDirectTranslate
    rw [hconv, htake]
    unfold vtPostprocess
    refine List.map_congr_left (fun term hterm => ?_)
    rw [conv_row_eq_matvec_row deriv dim pSrc pTgt C hterm]

end FftConvField

/-! ### The 2D Fourier-Bessel (Hankel) M2L engine (`m2l.py`,
`FourierBesselM2LTranslation`)

The coefficient identifiers of a `_HankelBased2DMultipoleExpansion` of
order `p` are the integers `-p..p` (`multipole.py` lines 424–428), stored
at index `order + k`.  The kernel-dependent scalar
`Hankel1(k, arg_scale·|dvec|) · exp(i·k·atan2(dvec_1, dvec_0))` is an
opaque function `hank : ℤ → F` of the order `k` alone (the geometry is
fixed per translation). -/

section FourierBessel

/-- `get_coefficient_identifiers` of a Hankel-based 2D expansion of order
`p` (`multipole.py` lines 427–428): `list(range(-order, order+1))`. -/
def fbIds (p : ℕ) : List ℤ :=
  (List.range (2 * p + 1)).map (fun i : ℕ => (i : ℤ) - (p : ℤ))

theorem mem_fbIds {p : ℕ} {k : ℤ} : k ∈ fbIds p ↔ -(p : ℤ) ≤ k ∧ k ≤ p := by
  unfold fbIds
  rw [List.mem_map]
  constructor
  · rintro ⟨i, hi, rfl⟩
    rw [List.mem_range] at hi
    constructor <;> omega
  · rintro ⟨h1, h2⟩
    refine ⟨(k + p).toNat, List.mem_range.mpr (by omega), ?_⟩
    omega

variable {F : Type} [Field F]

/-- `FourierBesselM2LTranslation.translation_classes_dependent_data`
(m2l.py lines 487–511): a zero-initialised buffer of length
`2·p_tgt + 2·p_src + 1`; for each target identifier `j` and source
identifier `m`, position `idx_j + idx_m` receives
`Hankel1(m+j, ...) · exp(i(m+j)·θ)`, modelled as `hank (m + j)`. -/
def fbData (hank : ℤ → F) (pSrc pTgt : ℕ) : List F :=
  (fbIds pTgt).foldl (fun acc j =>
    (fbIds pSrc).foldl (fun acc2 m =>
      acc2.set (((pTgt : ℤ) + j).toNat + ((pSrc : ℤ) + m).toNat) (hank (m + j))) acc)
    (List.replicate (2 * pTgt + 2 * pSrc + 1) 0)

/-- `FourierBesselM2LTranslation.preprocess_multipole_exprs` (lines
513–519): copy the list, then multiply the entry of each source
identifier `m` in place by `src_rscale^|m|`. -/
def fbPreprocess (pSrc : ℕ) (C : List F) (srcR : F) : List F :=
  (fbIds pSrc).foldl (fun acc m =>
    acc.set (((pSrc : ℤ) + m).toNat)
      (acc.getD (((pSrc : ℤ) + m).toNat) 0 * srcR ^ m.natAbs)) C

/-- `FourierBesselM2LTranslation.postprocess_local_exprs` (lines 525–534):
keep the entry of each target identifier `j`, scaled by
`tgt_rscale^|j| · (-1)^j`. -/
def fbPostprocess (pTgt : ℕ) (m2l : List F) (tgtR : F) : List F :=
  (fbIds pTgt).map (fun j =>
    m2l.getD (((pTgt : ℤ) + j).toNat) 0 * tgtR ^ j.natAbs * (-1 : F) ^ j)

/-- `FourierBesselM2LTranslation.translate` (lines 459–481): preprocess
the sources, take `Σ_m derivatives[m + j + p_tgt + p_src] · src[idx m]`
for each target identifier `j`, then postprocess. -/
def fbTranslate (hank : ℤ → F) (pSrc pTgt : ℕ) (C : List F) (srcR tgtR : F) :
    List F :=
  fbPostprocess pTgt
    ((fbIds pTgt).map (fun j =>
      ((fbIds pSrc).map (fun m =>
        (fbData hank pSrc pTgt).getD (m + j + (pTgt : ℤ) + pSrc).toNat 0
          * (fbPreprocess pSrc C srcR).getD (((pSrc : ℤ) + m).toNat) 0)).sum))
    tgtR

/-- The formula claimed by the spec for the Fourier-Bessel M2L output at
target identifier `j` (§4.4): the sum over source identifiers `m` of
`data[m+j] · (src[m] · src_rscale^|m|)`, post-multiplied by
`tgt_rscale^|j| · (-1)^j`. -/
def fbSpecValue (hank : ℤ → F) (pSrc : ℕ) (C : List F) (srcR tgtR : F)
    (j : ℤ) : F :=
  (((fbIds pSrc).map (fun m =>
    hank (m + j) * (C.getD (((pSrc : ℤ) + m).toNat) 0 * srcR ^ m.natAbs))).sum)
    * tgtR ^ j.natAbs * (-1 : F) ^ j

theorem foldl_flatMap {α β γ : Type} (l : List α) (f : α → List β) (g : γ → β → γ)
    (init : γ) :
    (l.flatMap f).foldl g init = l.foldl (fun acc a => (f a).foldl g acc) init := by
  induction l generalizing init with
  | nil => rfl
  | cons a l ih => rw [List.flatMap_cons, List.foldl_append, List.foldl_cons, ih]

theorem foldl_congr_fun {α β : Type} (l : List α) (f g : β → α → β) (init : β)
    (h : ∀ acc a, f acc a = g acc a) : l.foldl f init = l.foldl g init := by
  induction l generalizing init with
  | nil => rfl
  | cons a l ih => rw [List.foldl_cons, h, ih, List.foldl_cons]

theorem getD_set_self (l : List F) :
    ∀ (i : ℕ), i < l.length → ∀ (v d : F), (l.set i v).getD i d = v := by
  induction l with
  | nil => intro i hi; exact absurd hi (Nat.not_lt_zero i)
  | cons x xs ih =>
    intro i hi v d
    cases i with
    | zero => rfl
    | succ i =>
      have hstep : (x :: xs).set (i + 1) v = x :: xs.set i v := rfl
      rw [hstep, List.getD_cons_succ, ih i (Nat.lt_of_succ_lt_succ hi) v d]

theorem foldl_set_fun_getD_not_written {α : Type} (pos : α → ℕ)
    (f : α → List F → F) (l : List α) :
    ∀ (init : List F) (q : ℕ) (d : F), (∀ w ∈ l, pos w ≠ q) →
      (l.foldl (fun acc w => acc.set (pos w) (f w acc)) init).getD q d
        = init.getD q d := by
  induction l with
  | nil => intro init q d _; rfl
  | cons w l ih =>
    intro init q d h
    rw [List.foldl_cons,
      ih _ q d (fun w2 hw2 => h w2 (List.mem_cons_of_mem w hw2)),
      getD_set_ne init (pos w) q (h w (List.mem_cons_self w l)) _ d]

theorem foldl_set_fun_length {α : Type} (pos : α → ℕ) (f : α → List F → F)
    (l : List α) :
    ∀ init : List F,
      (l.foldl (fun acc w => acc.set (pos w) (f w acc)) init).length
        = init.length := by
  induction l with
  | nil => intro init; rfl
  | cons w l ih =>
    intro init
    rw [List.foldl_cons, ih, List.length_set]

theorem foldl_set_getD_posfun {α : Type} (pos : α → ℕ) (val : α → F) (g : ℕ → F)
    (l : List α) :
    ∀ (init : List F) (q : ℕ) (d : F), q < init.length →
      (∀ w ∈ l, val w = g (pos w)) →
      (∃ w ∈ l, pos w = q) →
      (l.foldl (fun acc w => acc.set (pos w) (val w)) init).getD q d = g q := by
  induction l with
  | nil =>
    intro init q d hq hval hwrit
    obtain ⟨w, hw, _⟩ := hwrit
    exact absurd hw (List.not_mem_nil w)
  | cons w l ih =>
    intro init q d hq hval hwrit
    rw [List.foldl_cons]
    by_cases hrest : ∃ w2 ∈ l, pos w2 = q
    · exact ih (init.set (pos w) (val w)) q d (by rw [List.length_set]; exact hq)
        (fun w2 hw2 => hval w2 (List.mem_cons_of_mem w hw2)) hrest
    · push_neg at hrest
      obtain ⟨w2, hw2, hq2⟩ := hwrit
      have hw2head : w2 = w := by
        rcases List.mem_cons.mp hw2 with h | h
        · exact h
        · exact absurd hq2 (hrest w2 h)
      have hqw : pos w = q := by rw [← hw2head]; exact hq2
      have hnw : ∀ w3 ∈ l, pos w3 ≠ q := hrest
      rw [foldl_set_fun_getD_not_written pos (fun w3 _ => val w3) l _ q d hnw, hqw]
      exact (getD_set_self init q hq (val w) d).trans
        (by rw [hval w (List.mem_cons_self w l), hqw])

theorem foldl_rmw_getD {α : Type} (pos : α → ℕ) (f : α → F → F) (l : List α) :
    ∀ (init : List F) (q : ℕ) (d : F) (w : α),
      (l.map pos).Nodup → w ∈ l → pos w = q → q < init.length →
      (l.foldl (fun acc w2 => acc.set (pos w2) (f w2 (acc.getD (pos w2) d))) init).getD
          q d
        = f w (init.getD q d) := by
  induction l with
  | nil =>
    intro init q d w _ hw
    exact absurd hw (List.not_mem_nil w)
  | cons w2 l ih =>
    intro init q d w hnodup hw hq hlen
    rw [List.map_cons, List.nodup_cons] at hnodup
    rw [List.foldl_cons]
    rcases List.mem_cons.mp hw with h | h
    · subst h
      have hrest : ∀ w3 ∈ l, pos w3 ≠ q := by
        intro w3 hw3 hcon
        have hmem : pos w ∈ l.map pos := by
          rw [hq, ← hcon]
          exact List.mem_map_of_mem pos hw3
        exact hnodup.1 hmem
      rw [foldl_set_fun_getD_not_written pos
        (fun w3 acc => f w3 (acc.getD (pos w3) d)) l _ q d hrest, hq]
      exact getD_set_self init q hlen _ d
    · have hne : pos w2 ≠ q := by
        intro hcon
        have hmem : pos w2 ∈ l.map pos := by
          rw [hcon, ← hq]
          exact List.mem_map_of_mem pos h
        exact hnodup.1 hmem
      rw [ih (init.set (pos w2) (f w2 (init.getD (pos w2) d))) q d w hnodup.2 h hq
          (by rw [List.length_set]; exact hlen),
        getD_set_ne init (pos w2) q hne _ d]

theorem fbIds_pos_map (p : ℕ) :
    (fbIds p).map (fun m => ((p : ℤ) + m).toNat) = List.range (2 * p + 1) := by
  unfold fbIds
  rw [List.map_map]
  calc (List.range (2 * p + 1)).map
        ((fun m => ((p : ℤ) + m).toNat) ∘ fun i : ℕ => (i : ℤ) - (p : ℤ))
      = (List.range (2 * p + 1)).map id := by
        refine List.map_congr_left (fun i hi => ?_)
        show ((p : ℤ) + ((i : ℤ) - (p : ℤ))).toNat = i
        omega
    _ = List.range (2 * p + 1) := List.map_id _

theorem fbIds_pos_nodup (p : ℕ) :
    ((fbIds p).map (fun m => ((p : ℤ) + m).toNat)).Nodup := by
  rw [fbIds_pos_map]
  exact List.nodup_range _

theorem fbData_getD (hank : ℤ → F) (pSrc pTgt : ℕ) {k : ℤ}
    (h1 : -((pSrc : ℤ) + pTgt) ≤ k) (h2 : k ≤ (pSrc : ℤ) + pTgt) :
    (fbData hank pSrc pTgt).getD (k + pSrc + pTgt).toNat 0 = hank k := by
  unfold fbData
  have hflat : (fbIds pTgt).foldl (fun acc j =>
        (fbIds pSrc).foldl (fun acc2 m =>
          acc2.set (((pTgt : ℤ) + j).toNat + ((pSrc : ℤ) + m).toNat)
            (hank (m + j))) acc)
        (List.replicate (2 * pTgt + 2 * pSrc + 1) 0)
      = ((fbIds pTgt).flatMap (fun j => (fbIds pSrc).map (fun m => (j, m)))).foldl
          (fun acc w =>
            acc.set (((pTgt : ℤ) + w.1).toNat + ((pSrc : ℤ) + w.2).toNat)
              (hank (w.2 + w.1)))
          (List.replicate (2 * pTgt + 2 * pSrc + 1) 0) := by
    rw [foldl_flatMap]
    exact foldl_congr_fun (fbIds pTgt) _ _ _
      (fun acc j => (List.foldl_map (fun m : ℤ => (j, m))
        (fun acc2 (w : ℤ × ℤ) =>
          acc2.set (((pTgt : ℤ) + w.1).toNat + ((pSrc : ℤ) + w.2).toNat)
            (hank (w.2 + w.1)))
        (fbIds pSrc) acc).symm)
  rw [hflat]
  have hlen : (k + (pSrc : ℤ) + pTgt).toNat
      < (List.replicate (2 * pTgt + 2 * pSrc + 1) (0 : F)).length := by
    rw [List.length_replicate]
    omega
  refine (foldl_set_getD_posfun
      (fun w : ℤ × ℤ => ((pTgt : ℤ) + w.1).toNat + ((pSrc : ℤ) + w.2).toNat)
      (fun w : ℤ × ℤ => hank (w.2 + w.1))
      (fun q => hank ((q : ℤ) - pSrc - pTgt))
      ((fbIds pTgt).flatMap (fun j => (fbIds pSrc).map (fun m => (j, m))))
      (List.replicate (2 * pTgt + 2 * pSrc + 1) 0)
      ((k + pSrc + pTgt).toNat) 0 hlen ?_ ?_).trans ?_
  · intro w hw
    rw [List.mem_flatMap] at hw
    obtain ⟨j, hj, hw2⟩ := hw
    rw [List.mem_map] at hw2
    obtain ⟨m, hm, hw3⟩ := hw2
    obtain rfl : (j, m) = w := hw3
    have hjb := mem_fbIds.mp hj
    have hmb := mem_fbIds.mp hm
    show hank (m + j)
      = hank ((((((pTgt : ℤ) + j).toNat + ((pSrc : ℤ) + m).toNat) : ℕ) : ℤ)
          - pSrc - pTgt)
    exact congrArg hank (by omega)
  · have hjmem : max (-(pTgt : ℤ)) (min (pTgt : ℤ) k) ∈ fbIds pTgt :=
      mem_fbIds.mpr ⟨by omega, by omega⟩
    have hmmem : k - max (-(pTgt : ℤ)) (min (pTgt : ℤ) k) ∈ fbIds pSrc :=
      mem_fbIds.mpr ⟨by omega, by omega⟩
    refine ⟨(max (-(pTgt : ℤ)) (min (pTgt : ℤ) k),
        k - max (-(pTgt : ℤ)) (min (pTgt : ℤ) k)), ?_, ?_⟩
    · rw [List.mem_flatMap]
      refine ⟨max (-(pTgt : ℤ)) (min (pTgt : ℤ) k), hjmem, ?_⟩
      rw [List.mem_map]
      exact ⟨k - max (-(pTgt : ℤ)) (min (pTgt : ℤ) k), hmmem, rfl⟩
    · show ((pTgt : ℤ) + max (-(pTgt : ℤ)) (min (pTgt : ℤ) k)).toNat
          + ((pSrc : ℤ) + (k - max (-(pTgt : ℤ)) (min (pTgt : ℤ) k))).toNat
        = (k + pSrc + pTgt).toNat
      omega
  · exact congrArg hank (by omega)

theorem fbPreprocess_getD (pSrc : ℕ) (C : List F) (srcR : F)
    (hC : C.length = 2 * pSrc + 1) {m : ℤ} (hm : m ∈ fbIds pSrc) :
    (fbPreprocess pSrc C srcR).getD (((pSrc : ℤ) + m).toNat) 0
      = C.getD (((pSrc : ℤ) + m).toNat) 0 * srcR ^ m.natAbs := by
  have hmb := mem_fbIds.mp hm
  unfold fbPreprocess
  exact foldl_rmw_getD (fun m2 => ((pSrc : ℤ) + m2).toNat)
    (fun m2 x => x * srcR ^ m2.natAbs) (fbIds pSrc) C (((pSrc : ℤ) + m).toNat) 0 m
    (fbIds_pos_nodup pSrc) hm rfl (by rw [hC]; omega)

theorem fbIds_map_getD (g : ℤ → F) (p : ℕ) {j : ℤ} (hj : j ∈ fbIds p) :
    ((fbIds p).map g).getD (((p : ℤ) + j).toNat) 0 = g j := by
  have hjb := mem_fbIds.mp hj
  unfold fbIds
  rw [List.map_map]
  rw [getD_range_map _ (show ((p : ℤ) + j).toNat < 2 * p + 1 by omega)]
  show g (((((p : ℤ) + j).toNat : ℕ) : ℤ) - p) = g j
  exact congrArg g (by omega)

/-- C4: (a) the Fourier-Bessel translation-class data vector holds the
kernel value of order `k` at offset `k + p_src + p_tgt` for every `k` in
`[-(p_src+p_tgt), p_src+p_tgt]`; (b) the translated coefficient at every
target identifier `j` is
`(Σ_{m=-p_src}^{p_src} data[m+j] · src[m] · src_rscale^|m|) · tgt_rscale^|j| · (-1)^j`. -/
theorem fb_m2l_matches_formula (hank : ℤ → F) (pSrc pTgt : ℕ) (C : List F)
    (srcR tgtR : F) (hC : C.length = 2 * pSrc + 1) :
    (∀ k : ℤ, -((pSrc : ℤ) + pTgt) ≤ k → k ≤ (pSrc : ℤ) + pTgt →
      (fbData hank pSrc pTgt).getD (k + pSrc + pTgt).toNat 0 = hank k)
    ∧ fbTranslate hank pSrc pTgt C srcR tgtR
        = (fbIds pTgt).map (fbSpecValue hank pSrc C srcR tgtR) := by
  constructor
  · intro k h1 h2
    exact fbData_getD hank pSrc pTgt h1 h2
  · unfold fbTranslate fbPostprocess
    refine List.map_congr_left (fun j hj => ?_)
    have hjb := mem_fbIds.mp hj
    rw [fbIds_map_getD (fun j2 => ((fbIds pSrc).map (fun m =>
      (fbData hank pSrc pTgt).getD (m + j2 + (pTgt : ℤ) + pSrc).toNat 0
        * (fbPreprocess pSrc C srcR).getD (((pSrc : ℤ) + m).toNat) 0)).sum) pTgt hj]
    unfold fbSpecValue
    congr 2
    refine listSum_congr (fun m hm => ?_)
    have hmb := mem_fbIds.mp hm
    have hidx : (m + j + (pTgt : ℤ) + pSrc).toNat
        = ((m + j) + (pSrc : ℤ) + pTgt).toNat := by omega
    rw [hidx, fbData_getD hank pSrc pTgt (by omega) (by omega),
      fbPreprocess_getD pSrc C srcR hC hm]

end FourierBessel

/-! ### Counting methods (`*_ndata`, `*_nexprs`), the FFT-variant
Fourier-Bessel constructor gate, the `translate_from` class check, and
purity of the operations (spec §4.3/§7/§8). -/

section Counting

/-- `VolumeTaylorM2LTranslation.translation_classes_dependent_ndata`
(m2l.py lines 174–181): the length of `circulant_matrix_mis`. -/
def vtTranslationDataNdata (dim pSrc pTgt : ℕ) : ℕ :=
  (circulantMis dim pSrc pTgt).length

/-- `VolumeTaylorM2LTranslation.preprocess_multipole_nexprs` (lines
327–331): also the length of `circulant_matrix_mis`. -/
def vtPreprocessNexprs (dim pSrc pTgt : ℕ) : ℕ :=
  (circulantMis dim pSrc pTgt).length

/-- `VolumeTaylorM2LTranslation.postprocess_local_nexprs` (lines
350–352): delegates to `translation_classes_dependent_ndata`. -/
def vtPostprocessNexprs (dim pSrc pTgt : ℕ) : ℕ :=
  vtTranslationDataNdata dim pSrc pTgt

/-- `FourierBesselM2LTranslation.translation_classes_dependent_ndata`
(lines 483–485). -/
def fbTranslationDataNdata (pSrc pTgt : ℕ) : ℕ := 2 * pTgt + 2 * pSrc + 1

/-- `FourierBesselM2LTranslation.preprocess_multipole_nexprs` (lines
521–522). -/
def fbPreprocessNexprs (pSrc : ℕ) : ℕ := 2 * pSrc + 1

/-- `FourierBesselM2LTranslation.postprocess_local_nexprs` (lines
535–536). -/
def fbPostprocessNexprs (pTgt : ℕ) : ℕ := 2 * pTgt + 1

variable {F : Type} [Field F]

/-- `FourierBesselM2LWithFFT.preprocess_multipole_exprs` (m2l.py lines
645–655): the inherited Fourier-Bessel preprocessing, reversed, padded
with `len - 1` zeros, then forward-transformed. -/
def fbFftPreprocess (ω : F) (pSrc : ℕ) (C : List F) (srcR : F) : List F :=
  fftM ω ((fbPreprocess pSrc C srcR).reverse
    ++ List.replicate ((fbPreprocess pSrc C srcR).reverse.length - 1) 0)

theorem fbIds_length (p : ℕ) : (fbIds p).length = 2 * p + 1 := by
  unfold fbIds
  rw [List.length_map, List.length_range]

theorem fbPreprocess_length (pSrc : ℕ) (C : List F) (srcR : F) :
    (fbPreprocess pSrc C srcR).length = C.length := by
  unfold fbPreprocess
  exact foldl_set_fun_length (fun m => ((pSrc : ℤ) + m).toNat)
    (fun m acc => acc.getD (((pSrc : ℤ) + m).toNat) 0 * srcR ^ m.natAbs)
    (fbIds pSrc) C

theorem fbData_length (hank : ℤ → F) (pSrc pTgt : ℕ) :
    (fbData hank pSrc pTgt).length = 2 * pTgt + 2 * pSrc + 1 := by
  unfold fbData
  have houter : ∀ (l : List ℤ) (init : List F),
      (l.foldl (fun acc j => (fbIds pSrc).foldl (fun acc2 m =>
        acc2.set (((pTgt : ℤ) + j).toNat + ((pSrc : ℤ) + m).toNat)
          (hank (m + j))) acc) init).length = init.length := by
    intro l
    induction l with
    | nil => intro init; rfl
    | cons j l ih =>
      intro init
      rw [List.foldl_cons, ih]
      exact foldl_set_fun_length
        (fun m => ((pTgt : ℤ) + j).toNat + ((pSrc : ℤ) + m).toNat)
        (fun m acc => hank (m + j)) (fbIds pSrc) init
  rw [houter]
  simp

theorem fbFftPreprocess_length (ω : F) (pSrc : ℕ) (C : List F) (srcR : F)
    (hC : C.length = 2 * pSrc + 1) :
    (fbFftPreprocess ω pSrc C srcR).length = 4 * pSrc + 1 := by
  unfold fbFftPreprocess
  rw [fftM_length, List.length_append, List.length_reverse,
    List.length_replicate, fbPreprocess_length, hC]
  omega

/-- C6 counterexample: at source order 1 the FFT-variant Fourier-Bessel
preprocessing produces 5 expressions, while the counter it inherits,
`preprocess_multipole_nexprs`, reports 3. -/
theorem m2l_ndata_fbfft_counterexample :
    (fbFftPreprocess (1 : ℚ) 1 [1, 2, 3] 1).length = 5
    ∧ fbPreprocessNexprs 1 = 3
    ∧ (fbFftPreprocess (1 : ℚ) 1 [1, 2, 3] 1).length ≠ fbPreprocessNexprs 1 :=
  ⟨rfl, rfl, by decide⟩

/-- C6 (amended): for the constructible variants every counting method
matches the produced length — the Volume Taylor data, preprocessing,
Toeplitz matvec (the postprocessing input) and the FFT-transformed
versions all have the circulant length, and the Fourier-Bessel data,
preprocessing and per-target intermediate have lengths `2p_t+2p_s+1`,
`2p_s+1` and `2p_t+1` — while the (unconstructible) FFT-variant
Fourier-Bessel preprocessing produces `4·p_src+1` expressions against the
inherited count of `2·p_src+1`. -/
theorem m2l_ndata_counts_match (deriv : Mi → F) (hank : ℤ → F) (ω : F)
    (dim pSrc pTgt : ℕ) (C Cfb : List F) (srcR : F)
    (hCfb : Cfb.length = 2 * pSrc + 1) :
    (translationClassesDependentData deriv dim pSrc pTgt).length
        = vtTranslationDataNdata dim pSrc pTgt
    ∧ (vtPreprocess dim pSrc pTgt C).length = vtPreprocessNexprs dim pSrc pTgt
    ∧ (matvec_toeplitz_upper_triangular (vtPreprocess dim pSrc pTgt C)
        (translationClassesDependentData deriv dim pSrc pTgt)).length
        = vtPostprocessNexprs dim pSrc pTgt
    ∧ (fftM ω (translationClassesDependentData deriv dim pSrc pTgt).reverse).length
        = vtTranslationDataNdata dim pSrc pTgt
    ∧ (fftM ω (vtPreprocess dim pSrc pTgt C)).length
        = vtPreprocessNexprs dim pSrc pTgt
    ∧ (fbData hank pSrc pTgt).length = fbTranslationDataNdata pSrc pTgt
    ∧ (fbPreprocess pSrc Cfb srcR).length = fbPreprocessNexprs pSrc
    ∧ (∀ g : ℤ → F, ((fbIds pTgt).map g).length = fbPostprocessNexprs pTgt)
    ∧ (fbFftPreprocess ω pSrc Cfb srcR).length = 4 * pSrc + 1 := by
  refine ⟨translationClassesDependentData_length deriv dim pSrc pTgt,
    vtPreprocess_length dim pSrc pTgt C, ?_, ?_, ?_,
    fbData_length hank pSrc pTgt, ?_, ?_,
    fbFftPreprocess_length ω pSrc Cfb srcR hCfb⟩
  · unfold matvec_toeplitz_upper_triangular vtPostprocessNexprs
      vtTranslationDataNdata
    rw [List.length_map, List.length_range, vtPreprocess_length]
  · rw [fftM_length, List.length_reverse]
    exact translationClassesDependentData_length deriv dim pSrc pTgt
  · rw [fftM_length]
    exact vtPreprocess_length dim pSrc pTgt C
  · unfold fbPreprocessNexprs
    rw [fbPreprocess_length, hCfb]
  · intro g
    unfold fbPostprocessNexprs
    rw [List.length_map, fbIds_length]

/-- Witness for C6 at source order 1 over `ℚ`. -/
theorem m2l_ndata_counts_match_witness :
    ([1, 2, 3] : List ℚ).length = 2 * 1 + 1
    ∧ (fbFftPreprocess (1 : ℚ) 1 [1, 2, 3] 1).length = 4 * 1 + 1 :=
  ⟨by decide,
    (m2l_ndata_counts_match (fun mi => ((mi.sum : ℚ))) (fun k => ((k.natAbs : ℚ)))
      1 1 1 1 [1, 2] [1, 2, 3] 1 (by decide)).2.2.2.2.2.2.2.2⟩

end Counting

section ConstructionGate

/-- `FourierBesselM2LWithFFT.__init__` (m2l.py lines 597–605): the
constructor unconditionally raises
`ValueError("Bessel based expansions with FFT is not fully supported
yet.")` before any state is initialised. -/
def fourierBesselM2LWithFFT_init : Except String Unit :=
  Except.error "Bessel based expansions with FFT is not fully supported yet."

/-- C8: requesting the FFT-accelerated Fourier-Bessel M2L variant fails
fast at construction with the explicit unsupported-configuration error;
no instance is ever produced, so no such translation can be executed. -/
theorem fb_fft_construction_always_fails :
    fourierBesselM2LWithFFT_init
        = Except.error
            "Bessel based expansions with FFT is not fully supported yet."
    ∧ ∀ u : Unit, fourierBesselM2LWithFFT_init ≠ Except.ok u := by
  refine ⟨rfl, fun u h => ?_⟩
  simp [fourierBesselM2LWithFFT_init] at h

end ConstructionGate

/-- The concrete expansion classes of `multipole.py`: the plain Volume
Taylor expansion, the three kernel-conforming Taylor variants (lines
379–417), and the two Hankel-based 2D expansions `H2DMultipoleExpansion`
and `Y2DMultipoleExpansion` (lines 498–515).  `translate_from` compares
`type(self)` against the source's class (`isinstance`); the concrete
classes are siblings, so the check succeeds exactly on equal classes. -/
inductive ExpansionClass
  | volumeTaylor
  | laplaceConforming
  | helmholtzConforming
  | biharmonicConforming
  | h2d
  | y2d
deriving DecidableEq

section ClassCheck

/-- `VolumeTaylorMultipoleExpansionBase.translate_from` (multipole.py
lines 145–150): raise `RuntimeError("do not know how to translate ...")`
when the source expansion is not an instance of the target's class,
otherwise run the translation.  The class is carried as an explicit tag;
no dimension or order comparison is performed before translating. -/
def vtTranslateFromChecked (srcClass tgtClass : ExpansionClass)
    (srcDim pSrc dim pTgt : ℕ) (C : List ℚ) (srcR : ℚ) (dvec : List ℚ)
    (tgtR : ℚ) : Except String (List ℚ) :=
  if srcClass ≠ tgtClass then Except.error "do not know how to translate"
  else Except.ok (translateFromFast srcDim pSrc dim pTgt C srcR dvec tgtR)

variable {F : Type} [Field F]

/-- `_HankelBased2DMultipoleExpansion.translate_from` (multipole.py lines
468–495), body: for each target identifier `j`, the sum over source
identifiers `m` of
`src[idx m] · bessel_j(m−j, ...) · src_rscale^|m| / tgt_rscale^|j| · exp(i(m−j)θ)`;
the Bessel-times-phase factor is the opaque `bess : ℤ → F`. -/
def hankelTranslateFrom (bess : ℤ → F) (pSrc pTgt : ℕ) (C : List F)
    (srcR tgtR : F) : List F :=
  (fbIds pTgt).map (fun j =>
    ((fbIds pSrc).map (fun m =>
      C.getD (((pSrc : ℤ) + m).toNat) 0 * bess (m - j) * srcR ^ m.natAbs
        / tgtR ^ j.natAbs)).sum)

/-- `_HankelBased2DMultipoleExpansion.translate_from` (lines 468–473): the
same `isinstance` gate in front of the Hankel translation. -/
def hankelTranslateFromChecked (srcClass tgtClass : ExpansionClass)
    (bess : ℤ → F) (pSrc pTgt : ℕ) (C : List F) (srcR tgtR : F) :
    Except String (List F) :=
  if srcClass ≠ tgtClass then Except.error "do not know how to translate"
  else Except.ok (hankelTranslateFrom bess pSrc pTgt C srcR tgtR)

theorem translateFromFast_dim_mismatch (srcDim pSrc dim pTgt : ℕ)
    (h : srcDim ≠ dim) (C : List ℚ) (srcR : ℚ) (dvec : List ℚ) (tgtR : ℚ) :
    translateFromFast srcDim pSrc dim pTgt C srcR dvec tgtR
      = (fullIds dim pTgt).map (fun t => 0) := by
  unfold translateFromFast
  refine List.map_congr_left (fun t ht => ?_)
  have hzero : ∀ axis, ∀ mi ∈ fullIds dim pTgt,
      scatterForAxis (fullIds srcDim pSrc) C srcR tgtR
        (splitCoeffsIntoHyperplanes dim pTgt) axis mi = 0 := by
    intro axis mi hmi
    unfold scatterForAxis
    have hnm : mi ∉ fullIds srcDim pSrc := by
      intro hc
      have h1 := (mem_fullIds.mp hmi).1
      have h2 := (mem_fullIds.mp hc).1
      exact h (by omega)
    by_cases hex : ∃ g ∈ splitCoeffsIntoHyperplanes dim pTgt, g.1 = axis ∧ mi ∈ g.2
    · rw [if_pos hex]
      unfold getCoeff
      rw [if_neg hnm]
    · rw [if_neg hex]
  have hax : ∀ axis ∈ List.range dim,
      axisContribution (fullIds srcDim pSrc) (fullIds dim pTgt) C srcR tgtR
        (splitCoeffsIntoHyperplanes dim pTgt) dim dvec axis t = 0 := by
    intro axis _
    unfold axisContribution
    rw [if_pos (fun mi hmi => hzero axis mi hmi)]
  exact (listSum_congr hax).trans (by simp)

/-- C9 counterexample: a same-class translation whose source and target
dimensions disagree (source built for 2 dimensions, target for 3) is not
rejected: `translate_from` silently returns an all-zero ok result instead
of failing. -/
theorem translate_from_dim_mismatch_counterexample :
    vtTranslateFromChecked ExpansionClass.volumeTaylor
        ExpansionClass.volumeTaylor 2 1 3 1 [1, 2, 3] 1 [1, 1, 1] 1
      = Except.ok ((fullIds 3 1).map (fun t => 0))
    ∧ (fullIds 3 1).length = 4 := by
  constructor
  · unfold vtTranslateFromChecked
    rw [if_neg (by decide)]
    exact congrArg Except.ok
      (translateFromFast_dim_mismatch 2 1 3 1 (by decide) [1, 2, 3] 1 [1, 1, 1] 1)
  · decide

/-- C9 (amended): `translate_from` fails fast with the usage error exactly
when the source expansion's class differs from the target's, for both the
Cartesian Taylor and the Hankel-based translation; with equal classes it
returns the translated coefficients — even when the dimensions of the two
expansions disagree, which is not checked. -/
theorem translate_from_class_check (srcClass tgtClass : ExpansionClass)
    (srcDim pSrc dim pTgt : ℕ) (C : List ℚ) (srcR : ℚ) (dvec : List ℚ)
    (tgtR : ℚ) (bess : ℤ → F) (pS pT : ℕ) (Cfb : List F) (sR tR : F) :
    (srcClass ≠ tgtClass →
      vtTranslateFromChecked srcClass tgtClass srcDim pSrc dim pTgt C srcR dvec
          tgtR = Except.error "do not know how to translate"
      ∧ hankelTranslateFromChecked srcClass tgtClass bess pS pT Cfb sR tR
          = Except.error "do not know how to translate")
    ∧ (srcClass = tgtClass →
      vtTranslateFromChecked srcClass tgtClass srcDim pSrc dim pTgt C srcR dvec
          tgtR = Except.ok (translateFromFast srcDim pSrc dim pTgt C srcR dvec tgtR)
      ∧ hankelTranslateFromChecked srcClass tgtClass bess pS pT Cfb sR tR
          = Except.ok (hankelTranslateFrom bess pS pT Cfb sR tR)) := by
  constructor
  · intro h
    constructor
    · unfold vtTranslateFromChecked
      rw [if_pos h]
    · unfold hankelTranslateFromChecked
      rw [if_pos h]
  · intro h
    constructor
    · unfold vtTranslateFromChecked
      rw [if_neg (fun hc => hc h)]
    · unfold hankelTranslateFromChecked
      rw [if_neg (fun hc => hc h)]

/-- Witness for C9: a Cartesian source refused by a Hankel target. -/
theorem translate_from_class_check_witness :
    (ExpansionClass.volumeTaylor ≠ ExpansionClass.h2d)
    ∧ vtTranslateFromChecked ExpansionClass.volumeTaylor ExpansionClass.h2d
        1 1 1 1 [1, 2] 1 [1] 1 = Except.error "do not know how to translate" :=
  ⟨by decide,
    ((translate_from_class_check ExpansionClass.volumeTaylor ExpansionClass.h2d
      1 1 1 1 [1, 2] 1 [1] 1 (fun k => ((k.natAbs : ℚ))) 1 1 [1, 2, 3] 1 1).1
      (by decide)).1⟩

end ClassCheck

section Purity

/-- C10 counterexample: the retained reference path
(`_fast_version=False`) hands back a source coefficient buffer that
differs from the caller's: with source order 2 in one dimension, the
third coefficient has been multiplied in place by `0! , 1! , 2!`. -/
theorem m2m_slow_path_mutates_counterexample :
    (translateFromSlow 1 2 1 2 [1, 1, 1] 1 [1] 1).2.getD 2 default = 2
    ∧ ([1, 1, 1] : List ℚ).getD 2 default = 1
    ∧ (2 : ℚ) ≠ 1 := by
  refine ⟨?_, rfl, by norm_num⟩
  show ((List.zipWith (fun mi c => c * (mi_factorial mi : ℚ)) (fullIds 1 2)
      [1, 1, 1]) ++ ([1, 1, 1] : List ℚ).drop (fullIds 1 2).length).getD 2 default
    = 2
  rw [zipWith_mut_getD (fullIds 1 2) [1, 1, 1] 2 (by decide) (by decide)]
  have e1 : ([1, 1, 1] : List ℚ).getD 2 default = 1 := rfl
  have e2 : mi_factorial ((fullIds 1 2).getD 2 []) = 2 := by decide
  rw [e1, e2]
  norm_num

/-- C10 (amended): every modelled operation is a deterministic function of
its explicit arguments, and the fast path and the M2L phases build fresh
buffers; but the retained reference path multiplies the caller's
`src_coeff_exprs[i]` in place by `mi_factorial(ids[i])`, so the buffer it
leaves behind is the scaled one, not the original. -/
theorem m2m_slow_path_mutation_law (srcDim pSrc dim pTgt : ℕ) (C : List ℚ)
    (srcR tgtR : ℚ) (dvec : List ℚ)
    (hC : C.length = (fullIds srcDim pSrc).length) :
    ∀ i, i < (fullIds srcDim pSrc).length →
      (translateFromSlow srcDim pSrc dim pTgt C srcR dvec tgtR).2.getD i default
        = C.getD i default * (mi_factorial ((fullIds srcDim pSrc).getD i []) : ℚ) := by
  intro i hi
  show ((List.zipWith (fun mi c => c * (mi_factorial mi : ℚ)) (fullIds srcDim pSrc) C)
      ++ C.drop (fullIds srcDim pSrc).length).getD i default = _
  exact zipWith_mut_getD (fullIds srcDim pSrc) C i hi hC

/-- Witness for C10: the mutation law at the third entry of the concrete
counterexample input. -/
theorem m2m_slow_path_mutation_law_witness :
    ([1, 1, 1] : List ℚ).length = (fullIds 1 2).length
    ∧ 2 < (fullIds 1 2).length
    ∧ (translateFromSlow 1 2 1 2 [1, 1, 1] 1 [1] 1).2.getD 2 default
        = ([1, 1, 1] : List ℚ).getD 2 default
            * (mi_factorial ((fullIds 1 2).getD 2 []) : ℚ) :=
  ⟨by decide, by decide,
    m2m_slow_path_mutation_law 1 2 1 2 [1, 1, 1] 1 1 [1] (by decide) 2 (by decide)⟩

end Purity

instance fact_prime_7 : Fact (Nat.Prime 7) := ⟨by norm_num⟩

instance fact_prime_19 : Fact (Nat.Prime 19) := ⟨by norm_num⟩

/-- Witness for C4 over `ZMod 7`: orders `p_src = p_tgt = 1`, concrete
source coefficients and rscales, and the data entry at `k = 2`. -/
theorem fb_m2l_matches_formula_witness :
    ([1, 2, 3] : List (ZMod 7)).length = 2 * 1 + 1
    ∧ (fbData (fun k : ℤ => ((k.natAbs : ZMod 7) + 1)) 1 1).getD
        ((2 : ℤ) + ((1 : ℕ) : ℤ) + ((1 : ℕ) : ℤ)).toNat 0
        = (((2 : ℤ).natAbs : ZMod 7) + 1)
    ∧ fbTranslate (fun k : ℤ => ((k.natAbs : ZMod 7) + 1)) 1 1 [1, 2, 3] 2 3
        = (fbIds 1).map
            (fbSpecValue (fun k : ℤ => ((k.natAbs : ZMod 7) + 1)) 1 [1, 2, 3] 2 3) := by
  refine ⟨by decide, ?_, ?_⟩
  · exact (fb_m2l_matches_formula (fun k : ℤ => ((k.natAbs : ZMod 7) + 1)) 1 1
      [1, 2, 3] 2 3 (by decide)).1 2 (by decide) (by decide)
  · exact (fb_m2l_matches_formula (fun k : ℤ => ((k.natAbs : ZMod 7) + 1)) 1 1
      [1, 2, 3] 2 3 (by decide)).2

/-- Witness for C3 over `ZMod 7` in one dimension, source and target order
1: the circulant space has size 3, `2` is a principal cube root of unity
modulo 7, and `5` inverts `3`. -/
theorem m2l_three_strategies_agree_witness :
    ((2 : ZMod 7) ^ (circulantMis 1 1 1).length = 1
      ∧ (((circulantMis 1 1 1).length : ℕ) : ZMod 7) * 5 = 1)
    ∧ vtFftPipeline (2 : ZMod 7) 5 (fun mi => (mi.sum : ZMod 7) + 1) 1 1 1 [3, 4] 1 2
        = vtDirectTranslate (fun mi => (mi.sum : ZMod 7) + 1) 1 1 1 [3, 4] 1 2 := by
  refine ⟨⟨by decide, by decide⟩, ?_⟩
  exact (m2l_three_strategies_agree 2 5 (fun mi => (mi.sum : ZMod 7) + 1) 1 1 1
    [3, 4] 1 2 (by decide)
    (fun r h1 h2 => by
      have h3 : r < 3 := by
        have h4 : (circulantMis 1 1 1).length = 3 := by decide
        rwa [h4] at h2
      clear h2
      interval_cases r <;> decide)
    (by decide)).2

end Sumpy
